import Mathlib

/-!
Verification of the frame-generation pipeline of `scoreboard.py` /
`creator.py` (the scoreboard video-overlay generator).

The Python source is shallowly embedded: timestamps (Python floats) become
rationals, CSV rows (Python dicts) become an `Event` structure holding the
parsed timestamp and the remaining named columns as an insertion-ordered
association list, rasters become an abstract type parameter, and the
external render / encoder collaborators become explicit function arguments
whose invocations the model records.
-/

/-- One row of the CSV table after `read_csv_data`: the `timestamp` column
parsed to a number (`row['timestamp'] = float(row['timestamp'])`), plus the
remaining named columns in header order.  Python dict equality
(`current_params != self.last_params`) is full key/value equality, which the
derived `DecidableEq` mirrors: two events are equal iff the timestamp and
every named field agree. -/
structure Event where
  timestamp : ℚ
  fields : List (String × String)
deriving DecidableEq, Repr, Inhabited

/-- A timeline as produced by `read_csv_data`: sorted ascending by
timestamp (`data.sort(key=lambda x: x['timestamp'])`). -/
def SortedTimeline (data : List Event) : Prop :=
  data.Pairwise fun a b => a.timestamp ≤ b.timestamp

instance (data : List Event) : Decidable (SortedTimeline data) :=
  List.instDecidablePairwise data

/-- The forward-scanning resolver inlined in `generate_overlay`
(scoreboard.py lines 158-161):

    while (current_data_idx < len(data) - 1 and
           timestamp >= data[current_data_idx + 1]['timestamp']):
        current_data_idx += 1

Given the clock time `t` of the current frame and the index held from the
previous frame, it advances while the next event's timestamp is ≤ t. -/
def advanceIdxF (data : List Event) (t : ℚ) : ℕ → ℕ → ℕ
  | 0, idx => idx
  | fuel + 1, idx =>
    if idx + 1 < data.length ∧ (data.getD (idx + 1) default).timestamp ≤ t then
      advanceIdxF data t fuel (idx + 1)
    else idx

/-- The loop, with the fuel `data.length - idx` that bounds how often its
condition can hold (each iteration moves `idx` one step toward the end). -/
def advanceIdx (data : List Event) (t : ℚ) (idx : ℕ) : ℕ :=
  advanceIdxF data t (data.length - idx) idx

/-- Concrete two-event timeline used by witnesses: `x = "A"` at 1 s,
`x = "B"` at 2 s. -/
def tlAB : List Event := [⟨1, [("x", "A")]⟩, ⟨2, [("x", "B")]⟩]

/-- Outcome of one invocation of the external encoder process: exit status
plus captured output (`subprocess.run(..., capture_output=True, text=True)`). -/
structure ProcResult where
  returncode : ℤ
  stdout : String
  stderr : String
deriving DecidableEq, Repr

/-- The errors the embedded pipeline can raise.  `calledProcessError` is
what `subprocess.run(..., check=True, ...)` raises on a non-zero exit
status: it carries the exit code and, because `capture_output=True` is
passed, the captured stdout/stderr of the process.  `exception` stands for
a plain `raise Exception(msg)`. -/
inductive PyError where
  | calledProcessError (returncode : ℤ) (stdout stderr : String)
  | exception (msg : String)
deriving DecidableEq, Repr

/-- `subprocess.run(cmd, check=True, capture_output=True, text=True)`
(scoreboard.py line 206): on non-zero exit status `check=True` raises
`CalledProcessError`, which carries the captured diagnostic output. -/
def subprocessRunCheck (r : ProcResult) : Except PyError ProcResult :=
  if r.returncode ≠ 0 then
    Except.error (PyError.calledProcessError r.returncode r.stdout r.stderr)
  else Except.ok r

/-- `ScoreBoard.encode_video` (scoreboard.py lines 187-208), modelled over
the behaviour of the external encoder: `encoder n` is the outcome the
encoder process would produce on its (n+1)-th invocation.  The returned
number counts how many times the encoder was invoked.  The code runs
`subprocess.run(cmd, check=True, capture_output=True, text=True)` exactly
once; the subsequent `if proc.returncode != 0: raise Exception(proc.stderr)`
is kept from the source even though `check=True` already raised for every
non-zero status. -/
def encode_video (encoder : ℕ → ProcResult) : Except PyError Unit × ℕ :=
  match subprocessRunCheck (encoder 0) with
  | Except.error e => (Except.error e, 1)
  | Except.ok proc =>
      (if proc.returncode ≠ 0 then Except.error (PyError.exception proc.stderr)
       else Except.ok (), 1)

/-- Concrete one-event timeline with last timestamp 9.5, for the frame-count
witness. -/
def tl95 : List Event := [⟨19 / 2, []⟩]

/-- A failing encoder: every invocation exits with status 1 and diagnostic
output "boom" on stderr. -/
def encFail : ℕ → ProcResult := fun _ => ⟨1, "", "boom"⟩

/-- Python dicts are insertion-ordered; an association list models them.
`dictUpsert d k v` is `d[k] = v`: when the key exists its value is
overwritten in place (position preserved), otherwise the entry is appended. -/
def dictUpsert (d : List (String × String)) (k : String) (v : String) :
    List (String × String) :=
  if d.any fun p => p.1 == k then
    d.map fun p => if p.1 == k then (k, v) else p
  else d ++ [(k, v)]

/-- `allparams = params.copy()` then `allparams.update(global_params)`
(scoreboard.py lines 110-111): every entry of `global_params` is upserted
into a copy of `params`.  A key present in both keeps its position from
`params` but takes the value from `global_params`. -/
def dictUpdate (d g : List (String × String)) : List (String × String) :=
  g.foldl (fun acc kv => dictUpsert acc kv.1 kv.2) d

/-- `d.get(k)`: the value at the first (for a genuine dict: only)
occurrence of key `k`. -/
def dictLookup (d : List (String × String)) (k : String) : Option String :=
  (d.find? fun p => p.1 == k).map Prod.snd

/-- Python `str.replace(old, new)` on character lists: every
non-overlapping occurrence of `pat` is replaced left to right, and the
replacement text is not rescanned.  `fill_template` only calls this with
the non-empty pattern `'{{' + key + '}}'`; for an empty pattern this model
returns the string unchanged. -/
def pyReplaceF (pat repl : List Char) : ℕ → List Char → List Char
  | _, [] => []
  | 0, s => s
  | fuel + 1, c :: rest =>
    if pat ≠ [] ∧ pat.isPrefixOf (c :: rest) then
      repl ++ pyReplaceF pat repl fuel (rest.drop (pat.length - 1))
    else c :: pyReplaceF pat repl fuel rest

/-- The scan, with fuel `s.length`: every step consumes at least one
character (`(c :: rest).drop pat.length = rest.drop (pat.length - 1)` for
the non-empty patterns the template engine uses), so the fuel never runs
out. -/
def pyReplace (pat repl s : List Char) : List Char :=
  pyReplaceF pat repl s.length s

/-- Prepend a character to the first piece of a decomposition. -/
def consHead (c : Char) : List (List Char) → List (List Char)
  | [] => [[c]]
  | p :: ps => (c :: p) :: ps

/-- The greedy left-to-right decomposition of a string at every
non-overlapping occurrence of `pat`: the pieces of text between
consecutive matches.  It mirrors the scan of `pyReplace`, so joining the
pieces with `pat` restores the input and joining them with the replacement
text is exactly `pyReplace`. -/
def splitOnSub (pat : List Char) : List Char → List (List Char)
  | [] => [[]]
  | c :: rest =>
    if h : pat ≠ [] ∧ pat.isPrefixOf (c :: rest) then
      [] :: splitOnSub pat ((c :: rest).drop pat.length)
    else consHead c (splitOnSub pat rest)
termination_by s => s.length
decreasing_by
  · simp only [List.length_drop, List.length_cons]
    have hpat : 0 < pat.length := List.length_pos.mpr h.1
    omega
  · simp only [List.length_cons]
    omega

/-- Join pieces with a separator between consecutive pieces. -/
def joinWith (sep : List Char) : List (List Char) → List Char
  | [] => []
  | [p] => p
  | p :: ps => p ++ sep ++ joinWith sep ps

/-- The literal token substituted for key `k`:
`placeholder = '{{' + key + '}}'` (scoreboard.py line 114). -/
def placeholder (k : String) : List Char :=
  '{' :: '{' :: (k.data ++ ['}', '}'])

/-- The substitution loop of `ScoreBoard.fill_template` (scoreboard.py
lines 112-116) over an already-merged parameter list:

    for key, value in allparams.items():
        if key != 'timestamp':
            placeholder = '{{' + key + '}}'
            result = result.replace(placeholder, str(value))

Values are strings (CSV cells / `--set` values), so `str(value)` is the
value itself; the reserved key `timestamp` is skipped. -/
def fillList (template : List Char) (allparams : List (String × String)) :
    List Char :=
  allparams.foldl
    (fun result kv =>
      if kv.1 = "timestamp" then result
      else pyReplace (placeholder kv.1) kv.2.data result)
    template

/-- `ScoreBoard.fill_template` (scoreboard.py lines 103-116): merge the
event parameters with the global parameters (`allparams = params.copy();
allparams.update(global_params)`) and substitute every placeholder. -/
def fill_template (template : List Char)
    (global_params params : List (String × String)) : List Char :=
  fillList template (dictUpdate params global_params)

/-- The dict a timeline row presents to `fill_template`: the parsed
`timestamp` entry plus the named fields.  The timestamp's rendered text is
irrelevant: the key `timestamp` is skipped by the substitution loop. -/
def eventDict (e : Event) : List (String × String) :=
  ("timestamp", toString e.timestamp) :: e.fields

/-- The template `{{a}}{{b}}` from the spec's round-trip example. -/
def tmplAB : List Char := placeholder "a" ++ placeholder "b"

/-- A placeholder-free template for the identity witness. -/
def tmplHello : List Char := "hello".data

/-- Text in which no brace occurs, so no part of a `{{name}}` token can lie
inside it.  Literal template text, placeholder names and parameter values
are brace-free in the spec's template model (placeholders are "tokens of
the literal form `{{name}}`", values are substituted in a single pass and
contain no tokens). -/
def BraceFree (s : List Char) : Prop := '{' ∉ s ∧ '}' ∉ s

instance (s : List Char) : Decidable (BraceFree s) :=
  inferInstanceAs (Decidable ('{' ∉ s ∧ '}' ∉ s))

/-- A well-formed template, given by its decomposition: a leading literal
segment `s0`, then for each entry `(name, seg)` of `rest` the token
`{{name}}` followed by the literal segment `seg`.  Any template whose
braces all belong to well-formed placeholder tokens has exactly one such
decomposition; names may repeat (several occurrences of one key) and may
name keys absent from the parameter map. -/
def assembleTemplate (s0 : List Char) : List (String × List Char) → List Char
  | [] => s0
  | p :: rest => s0 ++ placeholder p.1 ++ assembleTemplate p.2 rest

/-- Modelled from the spec (§4.2 substitution rule): what one placeholder
token named `n` becomes — the value's text when `n` is a non-`timestamp`
key of the effective map, the literal unresolved token otherwise (absent
keys, and the reserved key `timestamp`, which is never substituted). -/
def resolveTok (l : List (String × String)) (n : String) : List Char :=
  if n = "timestamp" then placeholder n
  else
    match dictLookup l n with
    | some v => v.data
    | none => placeholder n

/-- Modelled from the spec: the simultaneous (single-pass) substitution of
§4.2 — "for every key in the effective map except `timestamp`, every
literal occurrence of the token `{{key}}` in templateText is replaced by
the value's string form.  Keys present in the template but absent from the
effective map are left as literal unresolved tokens."  Each token of the
decomposed template is resolved independently; literal segments are
untouched.  To be compared with the source's sequential `fillList`. -/
def substTemplate (l : List (String × String)) (s0 : List Char) :
    List (String × List Char) → List Char
  | [] => s0
  | p :: rest => s0 ++ resolveTok l p.1 ++ substTemplate l p.2 rest

/-- The decomposed template after one key `k` has been substituted by `v`:
entries named `k` dissolve into the surrounding literal text (`v` and the
following segment merge into the preceding segment), all other entries
remain tokens. -/
def dissolveFrom (k : String) (v : List Char) (s0 : List Char) :
    List (String × List Char) → List Char × List (String × List Char)
  | [] => (s0, [])
  | p :: rest =>
      if p.1 = k then dissolveFrom k v (s0 ++ v ++ p.2) rest
      else
        (s0, (p.1, (dissolveFrom k v p.2 rest).1) ::
          (dissolveFrom k v p.2 rest).2)

/-- Python `int(x)` on a (non-NaN) float: truncation toward zero. -/
def pyInt (q : ℚ) : ℤ :=
  if q < 0 then -⌊-q⌋ else ⌊q⌋

/-- Duration selection in `generate_overlay` (scoreboard.py lines 140-143):

    if self.args.duration:
        duration = self.args.duration
    else:
        duration = data[-1]['timestamp'] + 1.0

`if self.args.duration:` is Python truthiness: `None` and `0.0` both take
the default branch. -/
def durationOf (durationArg : Option ℚ) (data : List Event) : ℚ :=
  match durationArg with
  | some d => if d = 0 then (data.getLastD default).timestamp + 1 else d
  | none => (data.getLastD default).timestamp + 1

/-- `total_frames = int(duration * self.fps)` (scoreboard.py line 145). -/
def total_frames (duration : ℚ) (fps : ℤ) : ℤ :=
  pyInt (duration * fps)

/-- What the frame loop did for one frame: a fresh render followed by
border normalization, or a byte-for-byte clone of the previous frame's
raster (`shutil.copy`). -/
inductive FrameAction where
  | rendered
  | cloned
deriving DecidableEq, Repr

/-- The observable record of one processed frame: the resolved data index,
the resolved ActiveParameterSet, whether the raster was freshly rendered or
cloned, and the raster content (generic in the raster type `R`). -/
structure FrameRec (R : Type) where
  dataIdx : ℕ
  params : Event
  action : FrameAction
  raster : R
deriving DecidableEq, Repr

instance {R : Type} [Inhabited R] : Inhabited (FrameRec R) :=
  ⟨⟨0, default, FrameAction.rendered, default⟩⟩

/-- The cross-iteration state of the frame loop: `current_data_idx`, and
the Frame Cache pair `last_params` / `last_frame_path`.  The pair is `none`
before the first frame (`self.last_params = None` in `__init__`) and both
components are assigned together at the end of every iteration
(scoreboard.py lines 175-176), which is why one `Option` holds them. -/
structure LoopState (R : Type) where
  dataIdx : ℕ
  last : Option (Event × R)
deriving DecidableEq, Repr

/-- One iteration of the frame loop of `generate_overlay` (scoreboard.py
lines 154-176), generic in the raster type `R` and the external render
backend: `render html` is the raster `render_html_to_image` produces for
the filled markup `html` (deterministic per input, per the Render Backend
Adapter contract), and `crop` is `crop_transparent_borders`:

    timestamp = frame_num / self.fps
    while (...): current_data_idx += 1        -- advanceIdx
    html_content = self.fill_template(template, self.global_params, current_params)
    if current_params != self.last_params:
        self.render_html_to_image(html_content, frame_path)
        self.crop_transparent_borders(frame_path)
    else:
        shutil.copy(self.last_frame_path, frame_path)
    self.last_frame_path = frame_path
    self.last_params = current_params
-/
def frameStep {R : Type} (render : List Char → R) (crop : R → R)
    (template : List Char) (gp : List (String × String)) (data : List Event)
    (fps : ℚ) (st : LoopState R) (frameNum : ℕ) : LoopState R × FrameRec R :=
  let t : ℚ := (frameNum : ℚ) / fps
  let idx := advanceIdx data t st.dataIdx
  let params := data.getD idx default
  let html := fill_template template gp (eventDict params)
  match st.last with
  | some pr =>
      if pr.1 = params then
        (⟨idx, some (params, pr.2)⟩, ⟨idx, params, FrameAction.cloned, pr.2⟩)
      else
        let r := crop (render html)
        (⟨idx, some (params, r)⟩, ⟨idx, params, FrameAction.rendered, r⟩)
  | none =>
      let r := crop (render html)
      (⟨idx, some (params, r)⟩, ⟨idx, params, FrameAction.rendered, r⟩)

/-- The frame loop over a list of frame numbers, threading the state and
collecting one record per frame. -/
def frameLoop {R : Type} (render : List Char → R) (crop : R → R)
    (template : List Char) (gp : List (String × String)) (data : List Event)
    (fps : ℚ) (st : LoopState R) : List ℕ → List (FrameRec R)
  | [] => []
  | f :: fs =>
    (frameStep render crop template gp data fps st f).2 ::
      frameLoop render crop template gp data fps
        (frameStep render crop template gp data fps st f).1 fs

/-- `for frame_num in range(total_frames)` (scoreboard.py line 154),
started from `current_data_idx = 0`, `current_params = data[0]`,
`last_params = None`. -/
def runFrames {R : Type} (render : List Char → R) (crop : R → R)
    (template : List Char) (gp : List (String × String)) (data : List Event)
    (fps : ℚ) (n : ℕ) : List (FrameRec R) :=
  frameLoop render crop template gp data fps ⟨0, none⟩ (List.range n)

/-- The record of frame `i` in a run of `n` frames. -/
def runFramesAt {R : Type} [Inhabited R] (render : List Char → R)
    (crop : R → R) (template : List Char) (gp : List (String × String))
    (data : List Event) (fps : ℚ) (n i : ℕ) : FrameRec R :=
  (runFrames render crop template gp data fps n).getD i default

/-- The spec's end-to-end example timeline: `x = "A"` at 0 s, `x = "B"` at
2 s. -/
def tlE2E : List Event := [⟨0, [("x", "A")]⟩, ⟨2, [("x", "B")]⟩]

/-- The template `{{x}}` for the frame-loop witnesses. -/
def tmplX : List Char := placeholder "x"

/-- Two events with identical named fields and different timestamps. -/
def evTsA : Event := ⟨0, [("x", "A")]⟩

/-- See `evTsA`: same fields, timestamp 2 s. -/
def evTsB : Event := ⟨2, [("x", "A")]⟩

/-- Two parameter lists that agree on keys pointwise and on the values of
every non-`timestamp` key (they may differ only in the value stored under
`timestamp`, the key the substitution loop skips). -/
def TsAgree (l1 l2 : List (String × String)) : Prop :=
  List.Forall₂ (fun a b => a.1 = b.1 ∧ (a.1 ≠ "timestamp" → a.2 = b.2)) l1 l2

/-- A PIL image as `crop_transparent_borders` sees it: `nonRGBA` for any
mode without a per-pixel alpha channel (`img.mode != 'RGBA'`), `rgba` for
mode RGBA with its pixel grid.  Generic in the pixel type `P`; the alpha
channel is extracted by a projection `alphaOf : P → ℕ` (PIL alpha bytes are
0..255). -/
inductive PILImage (P : Type) where
  | nonRGBA (rows : List (List P))
  | rgba (rows : List (List P))
deriving DecidableEq, Repr

/-- `alpha.max(axis=1)` for one row: the row's largest alpha value (numpy's
max over an axis; 0 for an empty row). -/
def rowAlphaMax {P : Type} (alphaOf : P → ℕ) (row : List P) : ℕ :=
  (row.map alphaOf).foldr max 0

/-- `alpha.max(axis=0)` at column `j`: the column's largest alpha value
(entries beyond a row's width contribute 0; numpy arrays are rectangular,
so on real rasters every row has the full width). -/
def colAlphaMax {P : Type} (alphaOf : P → ℕ) (rows : List (List P)) (j : ℕ) : ℕ :=
  (rows.map fun r => (r.map alphaOf).getD j 0).foldr max 0

/-- `non_transparent_rows = np.where(alpha.max(axis=1) > 0)[0]`
(scoreboard.py line 230): the ascending list of row indices containing a
pixel with alpha > 0. -/
def non_transparent_rows {P : Type} (alphaOf : P → ℕ)
    (rows : List (List P)) : List ℕ :=
  (List.range rows.length).filter fun i =>
    0 < rowAlphaMax alphaOf (rows.getD i [])

/-- `non_transparent_cols = np.where(alpha.max(axis=0) > 0)[0]`
(scoreboard.py line 231) over the raster width `w`. -/
def non_transparent_cols {P : Type} (alphaOf : P → ℕ)
    (rows : List (List P)) (w : ℕ) : List ℕ :=
  (List.range w).filter fun j => 0 < colAlphaMax alphaOf rows j

/-- The alpha value of the pixel at row `i`, column `j` (0 outside the
grid). -/
def pixAlpha {P : Type} (alphaOf : P → ℕ) (rows : List (List P))
    (i j : ℕ) : ℕ :=
  ((rows.getD i []).map alphaOf).getD j 0

/-- `top = non_transparent_rows[0]` (scoreboard.py line 239). -/
def cropTop {P : Type} (alphaOf : P → ℕ) (rows : List (List P)) : ℕ :=
  (non_transparent_rows alphaOf rows).headD 0

/-- `bottom = non_transparent_rows[-1]` (scoreboard.py line 240). -/
def cropBottom {P : Type} (alphaOf : P → ℕ) (rows : List (List P)) : ℕ :=
  (non_transparent_rows alphaOf rows).getLastD 0

/-- `left = non_transparent_cols[0]` (scoreboard.py line 241). -/
def cropLeft {P : Type} (alphaOf : P → ℕ) (rows : List (List P)) (w : ℕ) : ℕ :=
  (non_transparent_cols alphaOf rows w).headD 0

/-- `right = non_transparent_cols[-1]` (scoreboard.py line 242). -/
def cropRight {P : Type} (alphaOf : P → ℕ) (rows : List (List P)) (w : ℕ) : ℕ :=
  (non_transparent_cols alphaOf rows w).getLastD 0

/-- `crop_transparent_borders` (scoreboard.py lines 210-251; the same
function with extra prints at src/creator.py lines 15-58): return non-RGBA
images unmodified; compute the sets of row/column indices holding a pixel
with alpha > 0; if either is empty (fully transparent raster) return
unmodified with a warning only; otherwise crop to
`img.crop((left, top, right + 1, bottom + 1))` — rows `top..bottom` and
columns `left..right`, inclusive of the boundary pixels. -/
def crop_transparent_borders {P : Type} (alphaOf : P → ℕ)
    (img : PILImage P) : PILImage P :=
  match img with
  | PILImage.nonRGBA rows => PILImage.nonRGBA rows
  | PILImage.rgba rows =>
      let w := (rows.headD []).length
      if non_transparent_rows alphaOf rows = [] ∨
          non_transparent_cols alphaOf rows w = [] then
        PILImage.rgba rows
      else
        PILImage.rgba
          (((rows.take (cropBottom alphaOf rows + 1)).drop
              (cropTop alphaOf rows)).map
            fun r => (r.take (cropRight alphaOf rows w + 1)).drop
              (cropLeft alphaOf rows w))

/-- A 100 × 100 alpha grid whose only opaque pixel sits at row 5, column 5. -/
def alpha100 : List (List ℕ) :=
  (List.range 100).map fun i =>
    (List.range 100).map fun j => if i = 5 ∧ j = 5 then 255 else 0

/-- The control flow of `ScoreBoard.generate_overlay` (scoreboard.py lines
118-185) from the moment the browser is acquired (`setup_browser`, line
138), abstracted over the outcomes of the fallible steps: `renderResult i`
is the outcome of rendering frame `i` (the render backend call may raise)
and `encodeResult` the outcome of `encode_video`.  Returns the run's
outcome paired with whether `cleanup_browser` was invoked before the run
ended.  The source wraps nothing in try/finally: `self.cleanup_browser()`
(line 184) runs only after `encode_video` returns normally, and an
exception from the frame loop or the encoder propagates out of
`generate_overlay` (caught in `main`, which just prints and exits) without
closing the browser. -/
def generate_overlay_flow (renderResult : ℕ → Except PyError Unit)
    (encodeResult : Except PyError Unit) (totalFrames : ℕ) :
    Except PyError Unit × Bool :=
  match (List.range totalFrames).foldl
      (fun acc i => acc >>= fun _ => renderResult i) (Except.ok ()) with
  | Except.error e => (Except.error e, false)
  | Except.ok _ =>
      match encodeResult with
      | Except.error e => (Except.error e, false)
      | Except.ok _ => (Except.ok (), true)

/-- `i` is the index of the last event whose timestamp is ≤ `t`, or `0` when
no event's timestamp is ≤ `t` (the held-before-start case). -/
def IsLastEventLE (data : List Event) (t : ℚ) (i : ℕ) : Prop :=
  i < data.length ∧
    (((data.getD i default).timestamp ≤ t ∧
       ∀ j, j < data.length → (data.getD j default).timestamp ≤ t → j ≤ i) ∨
      (i = 0 ∧ ∀ j, j < data.length → t < (data.getD j default).timestamp))

theorem advanceIdx_eq (data : List Event) (t : ℚ) (idx : ℕ) :
    advanceIdx data t idx =
      if idx + 1 < data.length ∧ (data.getD (idx + 1) default).timestamp ≤ t then
        advanceIdx data t (idx + 1)
      else idx := by
  unfold advanceIdx
  by_cases h : idx + 1 < data.length ∧ (data.getD (idx + 1) default).timestamp ≤ t
  · rw [if_pos h]
    have h1 := h.1
    have hfuel : data.length - idx = (data.length - (idx + 1)) + 1 := by omega
    rw [hfuel]
    simp only [advanceIdxF]
    rw [if_pos h]
  · rw [if_neg h]
    cases hf : data.length - idx with
    | zero => rfl
    | succ k =>
      simp only [advanceIdxF]
      rw [if_neg h]

theorem sorted_ts_mono (data : List Event) (hsort : SortedTimeline data)
    {i j : ℕ} (hij : i ≤ j) (hj : j < data.length) :
    (data.getD i default).timestamp ≤ (data.getD j default).timestamp := by
  rcases eq_or_lt_of_le hij with rfl | hlt
  · exact le_refl _
  · have hi : i < data.length := lt_trans hlt hj
    rw [data.getD_eq_getElem default hi, data.getD_eq_getElem default hj]
    exact List.pairwise_iff_getElem.mp hsort i j hi hj hlt

theorem advanceIdx_spec (data : List Event) (t : ℚ) :
    ∀ fuel idx, data.length - idx ≤ fuel → idx < data.length →
      idx ≤ advanceIdx data t idx ∧ advanceIdx data t idx < data.length ∧
      (advanceIdx data t idx = idx ∨
        (data.getD (advanceIdx data t idx) default).timestamp ≤ t) ∧
      (advanceIdx data t idx + 1 < data.length →
        t < (data.getD (advanceIdx data t idx + 1) default).timestamp) := by
  intro fuel
  induction fuel with
  | zero => intro idx hf hidx; omega
  | succ n ih =>
    intro idx hf hidx
    rw [advanceIdx_eq]
    by_cases h : idx + 1 < data.length ∧ (data.getD (idx + 1) default).timestamp ≤ t
    · rw [if_pos h]
      have hrec := ih (idx + 1) (by omega) h.1
      refine ⟨le_trans (Nat.le_succ idx) hrec.1, hrec.2.1, ?_, hrec.2.2.2⟩
      rcases hrec.2.2.1 with heq | hle
      · rw [heq]; exact Or.inr h.2
      · exact Or.inr hle
    · rw [if_neg h]
      refine ⟨le_refl idx, hidx, Or.inl rfl, ?_⟩
      push_neg at h
      exact h

theorem advanceIdx_basic (data : List Event) (t : ℚ) (idx : ℕ)
    (hidx : idx < data.length) :
    idx ≤ advanceIdx data t idx ∧ advanceIdx data t idx < data.length ∧
      (advanceIdx data t idx = idx ∨
        (data.getD (advanceIdx data t idx) default).timestamp ≤ t) ∧
      (advanceIdx data t idx + 1 < data.length →
        t < (data.getD (advanceIdx data t idx + 1) default).timestamp) :=
  advanceIdx_spec data t (data.length - idx) idx (le_refl _) hidx

theorem advanceIdx_max (data : List Event) (t : ℚ) (idx : ℕ)
    (hsort : SortedTimeline data) (hidx : idx < data.length) :
    ∀ j, j < data.length → (data.getD j default).timestamp ≤ t →
      j ≤ advanceIdx data t idx := by
  intro j hj hts
  by_contra hgt
  push_neg at hgt
  have hbasic := advanceIdx_basic data t idx hidx
  have h1 : advanceIdx data t idx + 1 < data.length := by omega
  have h2 := hbasic.2.2.2 h1
  have h3 : (data.getD (advanceIdx data t idx + 1) default).timestamp ≤
      (data.getD j default).timestamp :=
    sorted_ts_mono data hsort (by omega) hj
  linarith

theorem advanceIdx_isLast (data : List Event) (t : ℚ) (idx : ℕ)
    (hsort : SortedTimeline data) (hidx : idx < data.length)
    (hstart : idx = 0 ∨ (data.getD idx default).timestamp ≤ t) :
    IsLastEventLE data t (advanceIdx data t idx) := by
  have hbasic := advanceIdx_basic data t idx hidx
  refine ⟨hbasic.2.1, ?_⟩
  by_cases hle : (data.getD (advanceIdx data t idx) default).timestamp ≤ t
  · exact Or.inl ⟨hle, advanceIdx_max data t idx hsort hidx⟩
  · have heq : advanceIdx data t idx = idx := by
      rcases hbasic.2.2.1 with heq | hc
      · exact heq
      · exact absurd hc hle
    have hidx0 : idx = 0 := by
      rcases hstart with h0 | hc
      · exact h0
      · rw [heq] at hle; exact absurd hc hle
    refine Or.inr ⟨by omega, ?_⟩
    intro j hj
    by_contra hc
    push_neg at hc
    have := advanceIdx_max data t idx hsort hidx j hj hc
    have hj0 : j = 0 := by omega
    subst hj0
    rw [heq, hidx0] at hle
    exact hle hc

/-- C4 — Held-before-start: for every non-empty, timestamp-sorted Timeline
and every clock time `t` strictly below the first event's timestamp, the
forward scan of `generate_overlay` stays at index 0 and the resolved
ActiveParameterSet is the first Event. -/
theorem resolve_held_before_start (data : List Event) (t : ℚ)
    (_hne : data ≠ []) (hsort : SortedTimeline data)
    (ht : t < (data.getD 0 default).timestamp) :
    advanceIdx data t 0 = 0 ∧
      data.getD (advanceIdx data t 0) default = data.getD 0 default := by
  have hcond : ¬ (0 + 1 < data.length ∧
      (data.getD (0 + 1) default).timestamp ≤ t) := by
    rintro ⟨h1, h2⟩
    have hmono := sorted_ts_mono data hsort (show 0 ≤ 0 + 1 by omega) h1
    linarith
  rw [advanceIdx_eq, if_neg hcond]
  exact ⟨rfl, rfl⟩

theorem resolve_held_before_start_witness :
    advanceIdx tlAB (1 / 2) 0 = 0 ∧
      tlAB.getD (advanceIdx tlAB (1 / 2) 0) default = tlAB.getD 0 default :=
  resolve_held_before_start tlAB (1 / 2) (by decide) (by decide) (by norm_num [tlAB])

/-- C5 — Monotonic resolution: querying the forward-scanning resolver at
`t1` from index 0 and then at `t2 > t1` from the returned index never moves
backward, and both answers are the last event whose timestamp is ≤ the
query time (index 0 when no event qualifies). -/
theorem resolve_monotonic (data : List Event) (t1 t2 : ℚ)
    (hne : data ≠ []) (hsort : SortedTimeline data) (h12 : t1 < t2) :
    advanceIdx data t1 0 ≤ advanceIdx data t2 (advanceIdx data t1 0) ∧
      IsLastEventLE data t1 (advanceIdx data t1 0) ∧
      IsLastEventLE data t2 (advanceIdx data t2 (advanceIdx data t1 0)) := by
  have h0 : 0 < data.length := List.length_pos.mpr hne
  have hbasic1 := advanceIdx_basic data t1 0 h0
  refine ⟨(advanceIdx_basic data t2 _ hbasic1.2.1).1, ?_, ?_⟩
  · exact advanceIdx_isLast data t1 0 hsort h0 (Or.inl rfl)
  · refine advanceIdx_isLast data t2 _ hsort hbasic1.2.1 ?_
    rcases hbasic1.2.2.1 with heq | hle
    · exact Or.inl heq
    · exact Or.inr (le_trans hle (le_of_lt h12))

theorem resolve_monotonic_witness :
    advanceIdx tlAB 1 0 ≤ advanceIdx tlAB 3 (advanceIdx tlAB 1 0) ∧
      IsLastEventLE tlAB 1 (advanceIdx tlAB 1 0) ∧
      IsLastEventLE tlAB 3 (advanceIdx tlAB 3 (advanceIdx tlAB 1 0)) :=
  resolve_monotonic tlAB 1 3 (by decide) (by decide) (by norm_num)

theorem getLastD_mem {α : Type _} (l : List α) (d : α) (h : l ≠ []) :
    l.getLastD d ∈ l := by
  rw [List.getLastD_eq_getLast?, List.getLast?_eq_getLast_of_ne_nil h,
    Option.getD_some]
  exact List.getLast_mem h

theorem sorted_le_getLastD (data : List Event) (hsort : SortedTimeline data) :
    ∀ e ∈ data, e.timestamp ≤ (data.getLastD default).timestamp := by
  intro e he
  have hne : data ≠ [] := by rintro rfl; cases he
  rw [List.getLastD_eq_getLast?, List.getLast?_eq_getLast_of_ne_nil hne,
    Option.getD_some, List.getLast_eq_getElem]
  obtain ⟨i, hi, rfl⟩ := List.mem_iff_getElem.mp he
  rcases Nat.lt_or_ge i (data.length - 1) with hlt | hge
  · exact List.pairwise_iff_getElem.mp hsort i (data.length - 1) hi (by omega) hlt
  · have hieq : i = data.length - 1 := by omega
    subst hieq
    exact le_refl _

theorem pyInt_of_nonneg (q : ℚ) (h : 0 ≤ q) : pyInt q = ⌊q⌋ := by
  unfold pyInt
  rw [if_neg (not_lt.mpr h)]

/-- C6 — Frame count and default duration: with a positive fps and a
non-negative duration, `total_frames` is `⌊duration * fps⌋`; when no
duration override is configured, the duration is the last event's
timestamp plus 1, and (the timeline being sorted) that timestamp is the
greatest in the timeline. -/
theorem total_frames_default_duration (data : List Event) (fps : ℤ) (d : ℚ)
    (_hne : data ≠ []) (hsort : SortedTimeline data) (hfps : 0 < fps)
    (hlast : 0 ≤ (data.getLastD default).timestamp) (hd : 0 ≤ d) :
    durationOf none data = (data.getLastD default).timestamp + 1 ∧
      (∀ e ∈ data, e.timestamp ≤ (data.getLastD default).timestamp) ∧
      total_frames (durationOf none data) fps =
        ⌊durationOf none data * (fps : ℚ)⌋ ∧
      total_frames d fps = ⌊d * (fps : ℚ)⌋ := by
  have hfps' : (0 : ℚ) ≤ (fps : ℚ) := by exact_mod_cast le_of_lt hfps
  have hdef : durationOf none data = (data.getLastD default).timestamp + 1 := rfl
  have hdur : 0 ≤ durationOf none data := by
    rw [hdef]
    linarith
  refine ⟨rfl, sorted_le_getLastD data hsort, ?_, ?_⟩
  · exact pyInt_of_nonneg _ (mul_nonneg hdur hfps')
  · exact pyInt_of_nonneg _ (mul_nonneg hd hfps')

theorem total_frames_default_duration_witness :
    total_frames (durationOf none tl95) 30 = 315 :=
  ((total_frames_default_duration tl95 30 0 (by decide) (by decide) (by decide)
      (by norm_num [tl95, List.getLastD]) le_rfl).2.2.1).trans
    (by norm_num [durationOf, tl95, List.getLastD])

/-- C9 — Encoder failure surfacing: when the external encoder exits with a
non-zero status, `encode_video` surfaces the error raised by
`subprocess.run(..., check=True, capture_output=True)`, which carries the
process's captured diagnostic output (stderr), and the encoder is invoked
exactly once (no retry). -/
theorem encode_video_failure (encoder : ℕ → ProcResult)
    (h : (encoder 0).returncode ≠ 0) :
    encode_video encoder =
      (Except.error (PyError.calledProcessError (encoder 0).returncode
        (encoder 0).stdout (encoder 0).stderr), 1) := by
  unfold encode_video subprocessRunCheck
  rw [if_pos h]

theorem encode_video_failure_witness :
    encode_video encFail =
      (Except.error (PyError.calledProcessError 1 "" "boom"), 1) :=
  encode_video_failure encFail (by decide)

theorem pyReplaceF_fuel (pat repl : List Char) :
    ∀ f1 f2 s, s.length ≤ f1 → s.length ≤ f2 →
      pyReplaceF pat repl f1 s = pyReplaceF pat repl f2 s := by
  intro f1
  induction f1 with
  | zero =>
    intro f2 s h1 _
    have hs : s = [] := List.length_eq_zero.mp (Nat.le_zero.mp h1)
    subst hs
    cases f2 <;> rfl
  | succ f ih =>
    intro f2 s h1 h2
    cases s with
    | nil => cases f2 <;> rfl
    | cons c rest =>
      cases f2 with
      | zero => simp at h2
      | succ f2' =>
        simp only [pyReplaceF]
        simp only [List.length_cons] at h1 h2
        by_cases h : pat ≠ [] ∧ pat.isPrefixOf (c :: rest)
        · rw [if_pos h, if_pos h]
          congr 1
          exact ih f2' _ (by simp only [List.length_drop]; omega)
            (by simp only [List.length_drop]; omega)
        · rw [if_neg h, if_neg h]
          congr 1
          exact ih f2' rest (by omega) (by omega)

theorem pyReplace_nil (pat repl : List Char) : pyReplace pat repl [] = [] := rfl

theorem pyReplace_cons (pat repl : List Char) (c : Char) (rest : List Char) :
    pyReplace pat repl (c :: rest) =
      if pat ≠ [] ∧ pat.isPrefixOf (c :: rest) then
        repl ++ pyReplace pat repl ((c :: rest).drop pat.length)
      else c :: pyReplace pat repl rest := by
  show pyReplaceF pat repl (c :: rest).length (c :: rest) = _
  simp only [List.length_cons, pyReplaceF]
  by_cases h : pat ≠ [] ∧ pat.isPrefixOf (c :: rest)
  · rw [if_pos h, if_pos h]
    congr 1
    have hpat : 0 < pat.length := List.length_pos.mpr h.1
    have hd : (c :: rest).drop pat.length = rest.drop (pat.length - 1) := by
      cases hp : pat.length with
      | zero => omega
      | succ m =>
        rw [List.drop_succ_cons]
        simp
    rw [hd]
    exact pyReplaceF_fuel pat repl rest.length _ _
      (by simp only [List.length_drop]; omega) le_rfl
  · rw [if_neg h, if_neg h]
    rfl

theorem splitOnSub_nil (pat : List Char) : splitOnSub pat [] = [[]] := by
  rw [splitOnSub]

theorem splitOnSub_cons (pat : List Char) (c : Char) (rest : List Char) :
    splitOnSub pat (c :: rest) =
      if pat ≠ [] ∧ pat.isPrefixOf (c :: rest) then
        [] :: splitOnSub pat ((c :: rest).drop pat.length)
      else consHead c (splitOnSub pat rest) := by
  rw [splitOnSub, dite_eq_ite]

theorem splitOnSub_ne_nil (pat s : List Char) : splitOnSub pat s ≠ [] := by
  cases s with
  | nil => rw [splitOnSub_nil]; simp
  | cons c rest =>
    rw [splitOnSub_cons]
    split
    · simp
    · cases splitOnSub pat rest <;> simp [consHead]

theorem joinWith_consHead (sep : List Char) (c : Char) (ps : List (List Char)) :
    joinWith sep (consHead c ps) = c :: joinWith sep ps := by
  cases ps with
  | nil => simp [consHead, joinWith]
  | cons p ps' =>
    cases ps' with
    | nil => simp [consHead, joinWith]
    | cons q qs => simp [consHead, joinWith]

theorem head_prefix_joinWith (sep : List Char) (p : List Char)
    (ps : List (List Char)) : p <+: joinWith sep (p :: ps) := by
  cases ps with
  | nil => exact List.prefix_refl p
  | cons q qs =>
    refine ⟨sep ++ joinWith sep (q :: qs), ?_⟩
    simp [joinWith, List.append_assoc]

theorem joinWith_splitOnSub (pat : List Char) :
    ∀ n s, s.length ≤ n → joinWith pat (splitOnSub pat s) = s := by
  intro n
  induction n with
  | zero =>
    intro s hs
    have hnil : s = [] := List.length_eq_zero.mp (Nat.le_zero.mp hs)
    subst hnil
    rw [splitOnSub_nil]
    rfl
  | succ n ih =>
    intro s hs
    cases s with
    | nil => rw [splitOnSub_nil]; rfl
    | cons c rest =>
      rw [splitOnSub_cons]
      by_cases h : pat ≠ [] ∧ pat.isPrefixOf (c :: rest)
      · rw [if_pos h]
        obtain ⟨p0, ps, hps⟩ :
            ∃ p0 ps, splitOnSub pat ((c :: rest).drop pat.length) = p0 :: ps := by
          cases hsp : splitOnSub pat ((c :: rest).drop pat.length) with
          | nil => exact absurd hsp (splitOnSub_ne_nil pat _)
          | cons p0 ps => exact ⟨p0, ps, rfl⟩
        have hpatlen : 0 < pat.length := List.length_pos.mpr h.1
        have hlen : ((c :: rest).drop pat.length).length ≤ n := by
          simp only [List.length_drop, List.length_cons] at hs ⊢
          omega
        have hIH := ih _ hlen
        rw [hps] at hIH
        have hpre : pat <+: (c :: rest) := List.isPrefixOf_iff_prefix.mp h.2
        obtain ⟨t, ht⟩ := hpre
        rw [hps]
        calc joinWith pat ([] :: p0 :: ps)
            = pat ++ joinWith pat (p0 :: ps) := by simp [joinWith]
          _ = pat ++ (c :: rest).drop pat.length := by rw [hIH]
          _ = c :: rest := by rw [← ht, List.drop_left]
      · rw [if_neg h, joinWith_consHead]
        have hIH := ih rest (by simp only [List.length_cons] at hs; omega)
        rw [hIH]

theorem pyReplace_joinWith (pat repl : List Char) :
    ∀ n s, s.length ≤ n →
      pyReplace pat repl s = joinWith repl (splitOnSub pat s) := by
  intro n
  induction n with
  | zero =>
    intro s hs
    have hnil : s = [] := List.length_eq_zero.mp (Nat.le_zero.mp hs)
    subst hnil
    rw [splitOnSub_nil, pyReplace_nil]
    rfl
  | succ n ih =>
    intro s hs
    cases s with
    | nil => rw [splitOnSub_nil, pyReplace_nil]; rfl
    | cons c rest =>
      rw [splitOnSub_cons, pyReplace_cons]
      by_cases h : pat ≠ [] ∧ pat.isPrefixOf (c :: rest)
      · rw [if_pos h, if_pos h]
        obtain ⟨p0, ps, hps⟩ :
            ∃ p0 ps, splitOnSub pat ((c :: rest).drop pat.length) = p0 :: ps := by
          cases hsp : splitOnSub pat ((c :: rest).drop pat.length) with
          | nil => exact absurd hsp (splitOnSub_ne_nil pat _)
          | cons p0 ps => exact ⟨p0, ps, rfl⟩
        have hpatlen : 0 < pat.length := List.length_pos.mpr h.1
        have hlen : ((c :: rest).drop pat.length).length ≤ n := by
          simp only [List.length_drop, List.length_cons] at hs ⊢
          omega
        have hIH := ih _ hlen
        rw [hps] at hIH ⊢
        rw [hIH]
        simp [joinWith]
      · rw [if_neg h, if_neg h, joinWith_consHead]
        have hIH := ih rest (by simp only [List.length_cons] at hs; omega)
        rw [hIH]

theorem splitOnSub_no_occurrence (pat : List Char) (hpat : pat ≠ []) :
    ∀ n s, s.length ≤ n →
      ∀ piece ∈ splitOnSub pat s, ¬ (pat <:+: piece) := by
  intro n
  induction n with
  | zero =>
    intro s hs piece hmem
    have hnil : s = [] := List.length_eq_zero.mp (Nat.le_zero.mp hs)
    subst hnil
    rw [splitOnSub_nil] at hmem
    rcases List.mem_singleton.mp hmem with rfl
    intro hinf
    exact hpat (List.eq_nil_of_infix_nil hinf)
  | succ n ih =>
    intro s hs piece hmem
    cases s with
    | nil =>
      rw [splitOnSub_nil] at hmem
      rcases List.mem_singleton.mp hmem with rfl
      intro hinf
      exact hpat (List.eq_nil_of_infix_nil hinf)
    | cons c rest =>
      rw [splitOnSub_cons] at hmem
      by_cases h : pat ≠ [] ∧ pat.isPrefixOf (c :: rest)
      · rw [if_pos h] at hmem
        have hpatlen : 0 < pat.length := List.length_pos.mpr h.1
        have hlen : ((c :: rest).drop pat.length).length ≤ n := by
          simp only [List.length_drop, List.length_cons] at hs ⊢
          omega
        rcases List.mem_cons.mp hmem with rfl | hmem'
        · intro hinf
          exact hpat (List.eq_nil_of_infix_nil hinf)
        · exact ih _ hlen piece hmem'
      · rw [if_neg h] at hmem
        have hrestlen : rest.length ≤ n := by
          simp only [List.length_cons] at hs
          omega
        obtain ⟨p0, ps, hps⟩ : ∃ p0 ps, splitOnSub pat rest = p0 :: ps := by
          cases hsp : splitOnSub pat rest with
          | nil => exact absurd hsp (splitOnSub_ne_nil pat _)
          | cons p0 ps => exact ⟨p0, ps, rfl⟩
        rw [hps] at hmem
        simp only [consHead] at hmem
        rcases List.mem_cons.mp hmem with rfl | hmem'
        · intro hinf
          rcases List.infix_cons_iff.mp hinf with hpre | hinf'
          · have hp0rest : p0 <+: rest := by
              have hjoin := joinWith_splitOnSub pat n rest hrestlen
              rw [hps] at hjoin
              rw [← hjoin]
              exact head_prefix_joinWith pat p0 ps
            have : pat <+: (c :: rest) := by
              obtain ⟨t1, ht1⟩ := hpre
              obtain ⟨t2, ht2⟩ := hp0rest
              refine ⟨t1 ++ t2, ?_⟩
              rw [← ht2, ← List.cons_append, ← ht1, List.append_assoc]
            exact h ⟨hpat, List.isPrefixOf_iff_prefix.mpr this⟩
          · exact ih rest hrestlen p0
              (by rw [hps]; exact List.mem_cons_self p0 ps) hinf'
        · exact ih rest hrestlen piece
            (by rw [hps]; exact List.mem_cons_of_mem p0 hmem')

theorem pyReplace_of_not_infix (pat repl : List Char) :
    ∀ s, ¬ (pat <:+: s) → pyReplace pat repl s = s := by
  intro s
  induction s with
  | nil => intro _; rw [pyReplace_nil]
  | cons c rest ih =>
    intro hni
    rw [pyReplace_cons, if_neg ?_]
    · rw [ih fun hinf => hni (List.infix_cons hinf)]
    · rintro ⟨_, hpre⟩
      exact hni (List.isPrefixOf_iff_prefix.mp hpre).isInfix

theorem fillList_id (template : List Char) :
    ∀ l, (∀ kv ∈ l, ¬ (placeholder kv.1 <:+: template)) →
      fillList template l = template := by
  intro l
  induction l with
  | nil => intro _; rfl
  | cons kv rest ih =>
    intro h
    have hstep : (if kv.1 = "timestamp" then template
        else pyReplace (placeholder kv.1) kv.2.data template) = template := by
      split
      · rfl
      · exact pyReplace_of_not_infix _ _ _ (h kv (List.mem_cons_self kv rest))
    calc fillList template (kv :: rest)
        = fillList (if kv.1 = "timestamp" then template
            else pyReplace (placeholder kv.1) kv.2.data template) rest := rfl
      _ = fillList template rest := by rw [hstep]
      _ = template := ih fun kv' h' => h kv' (List.mem_cons_of_mem kv h')

theorem placeholder_ne_nil (k : String) : placeholder k ≠ [] := by
  simp [placeholder]

theorem dictLookup_cons (a : String × String) (d : List (String × String))
    (k : String) :
    dictLookup (a :: d) k = if a.1 = k then some a.2 else dictLookup d k := by
  by_cases h : a.1 = k <;> simp [dictLookup, List.find?_cons, h]

theorem dictLookup_map_ne (d : List (String × String)) (k v k' : String)
    (hne : k' ≠ k) :
    dictLookup (d.map fun p => if p.1 == k then (k, v) else p) k' =
      dictLookup d k' := by
  induction d with
  | nil => rfl
  | cons a rest ih =>
    simp only [beq_iff_eq] at ih
    by_cases h : a.1 = k
    · simp [dictLookup_cons, h, Ne.symm hne, ih]
    · by_cases h' : a.1 = k'
      · simp [dictLookup_cons, h, h', hne]
      · simp [dictLookup_cons, h, h', ih]

theorem dictLookup_map_self (d : List (String × String)) (k v : String)
    (hmem : (d.any fun p => p.1 == k) = true) :
    dictLookup (d.map fun p => if p.1 == k then (k, v) else p) k = some v := by
  induction d with
  | nil => simp at hmem
  | cons a rest ih =>
    simp only [beq_iff_eq] at ih
    by_cases h : a.1 = k
    · simp [dictLookup_cons, h]
    · have hmem' : (rest.any fun p => p.1 == k) = true := by
        simp only [List.any_cons, Bool.or_eq_true] at hmem
        rcases hmem with hhead | htail
        · exact absurd (by simpa using hhead) h
        · exact htail
      simp [dictLookup_cons, h, ih hmem']

theorem dictLookup_append_ne (d : List (String × String)) (k v k' : String)
    (hne : k' ≠ k) :
    dictLookup (d ++ [(k, v)]) k' = dictLookup d k' := by
  induction d with
  | nil =>
    simp only [List.nil_append]
    rw [dictLookup_cons, if_neg (Ne.symm hne)]
  | cons a rest ih =>
    rw [List.cons_append, dictLookup_cons, dictLookup_cons]
    by_cases h : a.1 = k'
    · rw [if_pos h, if_pos h]
    · rw [if_neg h, if_neg h]
      exact ih

theorem dictLookup_append_self (d : List (String × String)) (k v : String)
    (habs : (d.any fun p => p.1 == k) = false) :
    dictLookup (d ++ [(k, v)]) k = some v := by
  induction d with
  | nil =>
    simp only [List.nil_append]
    rw [dictLookup_cons, if_pos rfl]
  | cons a rest ih =>
    simp only [List.any_cons, Bool.or_eq_false_iff] at habs
    rw [List.cons_append, dictLookup_cons, if_neg (by simpa using habs.1)]
    exact ih habs.2

theorem dictLookup_upsert (d : List (String × String)) (k v k' : String) :
    dictLookup (dictUpsert d k v) k' =
      if k' = k then some v else dictLookup d k' := by
  unfold dictUpsert
  by_cases hany : (d.any fun p => p.1 == k) = true
  · rw [if_pos hany]
    by_cases hk : k' = k
    · subst hk
      rw [if_pos rfl]
      exact dictLookup_map_self d k' v hany
    · rw [if_neg hk]
      exact dictLookup_map_ne d k v k' hk
  · rw [if_neg hany]
    rw [Bool.not_eq_true] at hany
    by_cases hk : k' = k
    · subst hk
      rw [if_pos rfl]
      exact dictLookup_append_self d k' v hany
    · rw [if_neg hk]
      exact dictLookup_append_ne d k v k' hk

theorem dictLookup_isSome (d : List (String × String)) (k : String) :
    (dictLookup d k).isSome = true ↔ k ∈ d.map Prod.fst := by
  induction d with
  | nil => simp [dictLookup, List.find?]
  | cons a rest ih =>
    rw [dictLookup_cons, List.map_cons]
    by_cases h : a.1 = k
    · simp [h]
    · rw [if_neg h]
      simp only [List.mem_cons]
      rw [ih]
      constructor
      · exact Or.inr
      · rintro (rfl | hmem)
        · exact absurd rfl h
        · exact hmem

theorem dictLookup_update (e g : List (String × String)) (k : String)
    (hg : (g.map Prod.fst).Nodup) :
    dictLookup (dictUpdate e g) k =
      if (dictLookup g k).isSome then dictLookup g k else dictLookup e k := by
  induction g generalizing e with
  | nil => simp [dictUpdate, dictLookup, List.find?]
  | cons p rest ih =>
    rw [List.map_cons] at hg
    obtain ⟨hnotin, hnd⟩ := List.nodup_cons.mp hg
    have hstep : dictUpdate e (p :: rest) = dictUpdate (dictUpsert e p.1 p.2) rest := rfl
    rw [hstep, ih _ hnd, dictLookup_cons]
    by_cases hk : (dictLookup rest k).isSome
    · have hkmem : k ∈ rest.map Prod.fst := (dictLookup_isSome rest k).mp hk
      have hne : p.1 ≠ k := fun heq => hnotin (heq ▸ hkmem)
      rw [if_pos hk, if_neg hne, if_pos hk]
    · rw [if_neg hk, dictLookup_upsert]
      by_cases hkp : k = p.1
      · subst hkp
        rw [if_pos rfl, if_pos rfl]
        simp
      · rw [if_neg hkp, if_neg (Ne.symm hkp), if_neg hk]

/-- C2 (corrected) — Template merge precedence: the effective map used by
`fill_template` is `params.copy()` updated with `global_params`, so for a
key present in both mappings the GLOBAL value is the one looked up (and
hence substituted); the event-level value survives only for keys absent
from the global mapping. -/
theorem fill_template_merge_precedence (template : List Char)
    (g e : List (String × String)) (k : String)
    (hg : (g.map Prod.fst).Nodup) :
    fill_template template g e = fillList template (dictUpdate e g) ∧
      dictLookup (dictUpdate e g) k =
        (if (dictLookup g k).isSome then dictLookup g k
         else dictLookup e k) :=
  ⟨rfl, dictLookup_update e g k hg⟩

theorem fill_template_merge_precedence_witness :
    fill_template (placeholder "a") [("a", "G")] [("a", "E"), ("b", "2")] =
        fillList (placeholder "a")
          (dictUpdate [("a", "E"), ("b", "2")] [("a", "G")]) ∧
      dictLookup (dictUpdate [("a", "E"), ("b", "2")] [("a", "G")]) "a" =
        (if (dictLookup [("a", "G")] "a").isSome then dictLookup [("a", "G")] "a"
         else dictLookup [("a", "E"), ("b", "2")] "a") :=
  fill_template_merge_precedence (placeholder "a") [("a", "G")]
    [("a", "E"), ("b", "2")] "a" (by decide)

/-- C2 counterexample: with the template `{{a}}`, global parameter
`a = "G"` and event parameter `a = "E"`, the code substitutes the GLOBAL
value `G` — `allparams.update(global_params)` overwrites the event value —
while the claim requires the event value `E`. -/
theorem fill_template_event_wins_cex :
    fill_template (placeholder "a") [("a", "G")] [("a", "E")] = "G".data ∧
      "G".data ≠ "E".data := by
  exact ⟨by decide, by decide⟩

theorem frameStep_state {R : Type} (render : List Char → R) (crop : R → R)
    (template : List Char) (gp : List (String × String)) (data : List Event)
    (fps : ℚ) (st : LoopState R) (f : ℕ) :
    (frameStep render crop template gp data fps st f).1 =
      ⟨(frameStep render crop template gp data fps st f).2.dataIdx,
        some ((frameStep render crop template gp data fps st f).2.params,
          (frameStep render crop template gp data fps st f).2.raster)⟩ := by
  simp only [frameStep]
  cases st.last with
  | none => rfl
  | some pr =>
    dsimp only
    split
    · rfl
    · rfl

theorem frameStep_resolution {R : Type} (render : List Char → R) (crop : R → R)
    (template : List Char) (gp : List (String × String)) (data : List Event)
    (fps : ℚ) (st : LoopState R) (f : ℕ) :
    (frameStep render crop template gp data fps st f).2.dataIdx =
        advanceIdx data ((f : ℚ) / fps) st.dataIdx ∧
      (frameStep render crop template gp data fps st f).2.params =
        data.getD (advanceIdx data ((f : ℚ) / fps) st.dataIdx) default := by
  simp only [frameStep]
  cases st.last with
  | none => exact ⟨rfl, rfl⟩
  | some pr =>
    dsimp only
    split
    · exact ⟨rfl, rfl⟩
    · exact ⟨rfl, rfl⟩

theorem frameStep_cache {R : Type} (render : List Char → R) (crop : R → R)
    (template : List Char) (gp : List (String × String)) (data : List Event)
    (fps : ℚ) (st : LoopState R) (f : ℕ) (p0 : Event) (r0 : R)
    (hlast : st.last = some (p0, r0)) :
    ((frameStep render crop template gp data fps st f).2.params = p0 →
      (frameStep render crop template gp data fps st f).2.action =
          FrameAction.cloned ∧
        (frameStep render crop template gp data fps st f).2.raster = r0) ∧
    ((frameStep render crop template gp data fps st f).2.params ≠ p0 →
      (frameStep render crop template gp data fps st f).2.action =
          FrameAction.rendered ∧
        (frameStep render crop template gp data fps st f).2.raster =
          crop (render (fill_template template gp
            (eventDict (frameStep render crop template gp data fps st f).2.params)))) := by
  simp only [frameStep, hlast]
  by_cases h : p0 = data.getD (advanceIdx data ((f : ℚ) / fps) st.dataIdx) default
  · rw [if_pos h]
    dsimp only
    refine ⟨fun _ => ⟨rfl, rfl⟩, fun hne => absurd h.symm hne⟩
  · rw [if_neg h]
    dsimp only
    refine ⟨fun heq => absurd heq.symm h, fun _ => ⟨rfl, rfl⟩⟩

theorem frameStep_fresh {R : Type} (render : List Char → R) (crop : R → R)
    (template : List Char) (gp : List (String × String)) (data : List Event)
    (fps : ℚ) (st : LoopState R) (f : ℕ) (hlast : st.last = none) :
    (frameStep render crop template gp data fps st f).2.action =
        FrameAction.rendered ∧
      (frameStep render crop template gp data fps st f).2.raster =
        crop (render (fill_template template gp
          (eventDict (frameStep render crop template gp data fps st f).2.params))) := by
  simp [frameStep, hlast]

theorem frameLoop_length {R : Type} (render : List Char → R) (crop : R → R)
    (template : List Char) (gp : List (String × String)) (data : List Event)
    (fps : ℚ) :
    ∀ (fs : List ℕ) (st : LoopState R),
      (frameLoop render crop template gp data fps st fs).length = fs.length := by
  intro fs
  induction fs with
  | nil => intro st; rfl
  | cons f fs ih =>
    intro st
    simp only [frameLoop, List.length_cons, ih]

theorem frameLoop_consec {R : Type} [Inhabited R] (render : List Char → R)
    (crop : R → R) (template : List Char) (gp : List (String × String))
    (data : List Event) (fps : ℚ) :
    ∀ (fs : List ℕ) (st : LoopState R) (i : ℕ), i + 1 < fs.length →
      (frameLoop render crop template gp data fps st fs).getD (i + 1) default =
        (frameStep render crop template gp data fps
          ⟨((frameLoop render crop template gp data fps st fs).getD i
              default).dataIdx,
            some (((frameLoop render crop template gp data fps st fs).getD i
                default).params,
              ((frameLoop render crop template gp data fps st fs).getD i
                default).raster)⟩
          (fs.getD (i + 1) 0)).2 := by
  intro fs
  induction fs with
  | nil => intro st i h; simp at h
  | cons f fs ih =>
    intro st i h
    cases fs with
    | nil => simp at h
    | cons f1 fs1 =>
      cases i with
      | zero =>
        simp only [frameLoop, List.getD_cons_succ, List.getD_cons_zero]
        rw [frameStep_state]
      | succ i' =>
        simp only [List.length_cons] at h
        simp only [frameLoop, List.getD_cons_succ]
        have hgoal := ih (frameStep render crop template gp data fps st f).1 i'
          (by simp only [List.length_cons]; omega)
        simp only [frameLoop] at hgoal
        exact hgoal

/-- C1 — Frame Cache dedup correctness: in a run's trace, a frame whose
resolved ActiveParameterSet equals the previous frame's (full key/value
equality, including `timestamp`) is produced as a byte-identical clone of
the previous raster with no render/normalization, while a frame whose set
differs (and frame 0, which has no predecessor) is freshly rendered and
border-normalized from its own filled template; and every iteration updates
the cache state (`last_params`, `last_frame_path`) to the frame it just
produced. -/
theorem frame_cache_dedup {R : Type} [Inhabited R] (render : List Char → R)
    (crop : R → R) (template : List Char) (gp : List (String × String))
    (data : List Event) (fps : ℚ) (n i : ℕ) (st : LoopState R) (f : ℕ)
    (hi : i + 1 < n) :
    (if (runFramesAt render crop template gp data fps n (i + 1)).params =
        (runFramesAt render crop template gp data fps n i).params
     then (runFramesAt render crop template gp data fps n (i + 1)).action =
            FrameAction.cloned ∧
          (runFramesAt render crop template gp data fps n (i + 1)).raster =
            (runFramesAt render crop template gp data fps n i).raster
     else (runFramesAt render crop template gp data fps n (i + 1)).action =
            FrameAction.rendered ∧
          (runFramesAt render crop template gp data fps n (i + 1)).raster =
            crop (render (fill_template template gp (eventDict
              (runFramesAt render crop template gp data fps n (i + 1)).params)))) ∧
      (runFramesAt render crop template gp data fps n 0).action =
        FrameAction.rendered ∧
      (runFramesAt render crop template gp data fps n 0).raster =
        crop (render (fill_template template gp (eventDict
          (runFramesAt render crop template gp data fps n 0).params))) ∧
      (frameStep render crop template gp data fps st f).1 =
        ⟨(frameStep render crop template gp data fps st f).2.dataIdx,
          some ((frameStep render crop template gp data fps st f).2.params,
            (frameStep render crop template gp data fps st f).2.raster)⟩ := by
  have hlen : i + 1 < (List.range n).length := by
    rw [List.length_range]
    exact hi
  have hcons := frameLoop_consec render crop template gp data fps
    (List.range n) ⟨0, none⟩ i hlen
  refine ⟨?_, ?_, ?_, frameStep_state render crop template gp data fps st f⟩
  · simp only [runFramesAt, runFrames]
    rw [hcons]
    have hcache := frameStep_cache render crop template gp data fps
      ⟨((frameLoop render crop template gp data fps ⟨0, none⟩
          (List.range n)).getD i default).dataIdx,
        some (((frameLoop render crop template gp data fps ⟨0, none⟩
            (List.range n)).getD i default).params,
          ((frameLoop render crop template gp data fps ⟨0, none⟩
            (List.range n)).getD i default).raster)⟩
      ((List.range n).getD (i + 1) 0)
      ((frameLoop render crop template gp data fps ⟨0, none⟩
        (List.range n)).getD i default).params
      ((frameLoop render crop template gp data fps ⟨0, none⟩
        (List.range n)).getD i default).raster rfl
    split
    · next heq => exact hcache.1 heq
    · next hne => exact hcache.2 hne
  · obtain ⟨m, rfl⟩ : ∃ m, n = m + 1 := ⟨n - 1, by omega⟩
    simp only [runFramesAt, runFrames, List.range_succ_eq_map, frameLoop,
      List.getD_cons_zero]
    exact (frameStep_fresh render crop template gp data fps ⟨0, none⟩ 0 rfl).1
  · obtain ⟨m, rfl⟩ : ∃ m, n = m + 1 := ⟨n - 1, by omega⟩
    simp only [runFramesAt, runFrames, List.range_succ_eq_map, frameLoop,
      List.getD_cons_zero]
    exact (frameStep_fresh render crop template gp data fps ⟨0, none⟩ 0 rfl).2

theorem frame_cache_dedup_witness :
    (if (runFramesAt List.length Nat.succ tmplX [] tlE2E 1 3 1).params =
        (runFramesAt List.length Nat.succ tmplX [] tlE2E 1 3 0).params
     then (runFramesAt List.length Nat.succ tmplX [] tlE2E 1 3 1).action =
            FrameAction.cloned ∧
          (runFramesAt List.length Nat.succ tmplX [] tlE2E 1 3 1).raster =
            (runFramesAt List.length Nat.succ tmplX [] tlE2E 1 3 0).raster
     else (runFramesAt List.length Nat.succ tmplX [] tlE2E 1 3 1).action =
            FrameAction.rendered ∧
          (runFramesAt List.length Nat.succ tmplX [] tlE2E 1 3 1).raster =
            Nat.succ (List.length (fill_template tmplX [] (eventDict
              (runFramesAt List.length Nat.succ tmplX [] tlE2E 1 3 1).params)))) ∧
      (runFramesAt List.length Nat.succ tmplX [] tlE2E 1 3 0).action =
        FrameAction.rendered ∧
      (runFramesAt List.length Nat.succ tmplX [] tlE2E 1 3 0).raster =
        Nat.succ (List.length (fill_template tmplX [] (eventDict
          (runFramesAt List.length Nat.succ tmplX [] tlE2E 1 3 0).params))) ∧
      (frameStep List.length Nat.succ tmplX [] tlE2E 1 ⟨0, none⟩ 0).1 =
        ⟨(frameStep List.length Nat.succ tmplX [] tlE2E 1 ⟨0, none⟩ 0).2.dataIdx,
          some ((frameStep List.length Nat.succ tmplX [] tlE2E 1
              ⟨0, none⟩ 0).2.params,
            (frameStep List.length Nat.succ tmplX [] tlE2E 1
              ⟨0, none⟩ 0).2.raster)⟩ :=
  frame_cache_dedup List.length Nat.succ tmplX [] tlE2E 1 3 0 ⟨0, none⟩ 0
    (by decide)

theorem TsAgree.upsert {l1 l2 : List (String × String)} (h : TsAgree l1 l2)
    (k v : String) : TsAgree (dictUpsert l1 k v) (dictUpsert l2 k v) := by
  unfold dictUpsert
  have hany : (l1.any fun p => p.1 == k) = (l2.any fun p => p.1 == k) := by
    induction h with
    | nil => rfl
    | cons hab _ ih => simp only [List.any_cons, ih, hab.1]
  rw [hany]
  by_cases hc : (l2.any fun p => p.1 == k) = true
  · rw [if_pos hc, if_pos hc]
    unfold TsAgree
    rw [List.forall₂_map_left_iff, List.forall₂_map_right_iff]
    refine h.imp ?_
    intro a b hab
    by_cases hk : a.1 = k
    · rw [if_pos (by simp [hk]), if_pos (by simp [hab.1 ▸ hk])]
      exact ⟨rfl, fun _ => rfl⟩
    · rw [if_neg (by simp [hk]), if_neg (by simp [hab.1 ▸ hk])]
      exact hab
  · rw [if_neg hc, if_neg hc]
    exact List.rel_append h
      (List.Forall₂.cons ⟨rfl, fun _ => rfl⟩ List.Forall₂.nil)

theorem TsAgree.update {l1 l2 : List (String × String)} (h : TsAgree l1 l2)
    (g : List (String × String)) : TsAgree (dictUpdate l1 g) (dictUpdate l2 g) := by
  induction g generalizing l1 l2 with
  | nil => exact h
  | cons p rest ih => exact ih (h.upsert p.1 p.2)

theorem fillList_congr {l1 l2 : List (String × String)} (h : TsAgree l1 l2) :
    ∀ template, fillList template l1 = fillList template l2 := by
  induction h with
  | nil => intro t; rfl
  | @cons a b l1' l2' hab _ ih =>
    intro t
    have hstep : (if a.1 = "timestamp" then t
        else pyReplace (placeholder a.1) a.2.data t) =
      (if b.1 = "timestamp" then t
        else pyReplace (placeholder b.1) b.2.data t) := by
      rw [← hab.1]
      by_cases hk : a.1 = "timestamp"
      · rw [if_pos hk, if_pos hk]
      · rw [if_neg hk, if_neg hk, hab.2 hk]
    calc fillList t (a :: l1')
        = fillList (if a.1 = "timestamp" then t
            else pyReplace (placeholder a.1) a.2.data t) l1' := rfl
      _ = fillList (if b.1 = "timestamp" then t
            else pyReplace (placeholder b.1) b.2.data t) l2' := by
          rw [hstep]; exact ih _
      _ = fillList t (b :: l2') := rfl

theorem fill_template_timestamp_insensitive (template : List Char)
    (gp : List (String × String)) (e1 e2 : Event)
    (hfields : e1.fields = e2.fields) :
    fill_template template gp (eventDict e1) =
      fill_template template gp (eventDict e2) := by
  unfold fill_template eventDict
  refine fillList_congr (TsAgree.update ?_ gp) template
  refine List.Forall₂.cons ⟨rfl, fun hne => absurd rfl hne⟩ ?_
  rw [hfields]
  exact List.forall₂_same.mpr fun x _ => ⟨rfl, fun _ => rfl⟩

theorem advanceIdx_path (data : List Event) (t : ℚ) (i1 : ℕ)
    (hsort : SortedTimeline data) (h0 : 0 < data.length)
    (hi1 : i1 < data.length)
    (hstart : i1 = 0 ∨ (data.getD i1 default).timestamp ≤ t) :
    advanceIdx data t i1 = advanceIdx data t 0 := by
  have hb1 := advanceIdx_basic data t i1 hi1
  have hb0 := advanceIdx_basic data t 0 h0
  apply Nat.le_antisymm
  · rcases hb1.2.2.1 with heq | hle
    · rw [heq]
      rcases hstart with hz | hts
      · rw [hz]
        exact hb0.1
      · exact advanceIdx_max data t 0 hsort h0 i1 hi1 hts
    · exact advanceIdx_max data t 0 hsort h0 _ hb1.2.1 hle
  · rcases hb0.2.2.1 with heq | hle
    · rw [heq]
      exact Nat.zero_le _
    · exact advanceIdx_max data t i1 hsort hi1 _ hb0.2.1 hle

theorem frameLoop_resolution {R : Type} [Inhabited R] (render : List Char → R)
    (crop : R → R) (template : List Char) (gp : List (String × String))
    (data : List Event) (fps : ℚ) (hsort : SortedTimeline data)
    (hne : data ≠ []) (hfps : 0 < fps) :
    ∀ (len s i0 : ℕ) (last0 : Option (Event × R)),
      i0 < data.length →
      (i0 = 0 ∨ (data.getD i0 default).timestamp ≤ (s : ℚ) / fps) →
      ∀ j, j < len →
        ((frameLoop render crop template gp data fps ⟨i0, last0⟩
            (List.range' s len)).getD j default).dataIdx =
            advanceIdx data (((s + j : ℕ) : ℚ) / fps) 0 ∧
          ((frameLoop render crop template gp data fps ⟨i0, last0⟩
              (List.range' s len)).getD j default).params =
            data.getD (advanceIdx data (((s + j : ℕ) : ℚ) / fps) 0) default := by
  have h0 : 0 < data.length := List.length_pos.mpr hne
  intro len
  induction len with
  | zero => intro s i0 last0 _ _ j hj; omega
  | succ len ih =>
    intro s i0 last0 hi0 hstart j hj
    rw [List.range'_succ]
    cases j with
    | zero =>
      simp only [frameLoop, List.getD_cons_zero, Nat.add_zero]
      have hres := frameStep_resolution render crop template gp data fps
        ⟨i0, last0⟩ s
      have hpath := advanceIdx_path data ((s : ℚ) / fps) i0 hsort h0 hi0 hstart
      constructor
      · rw [hres.1]
        exact hpath
      · rw [hres.2, hpath]
    | succ j' =>
      simp only [frameLoop, List.getD_cons_succ]
      have hstate := frameStep_state render crop template gp data fps
        ⟨i0, last0⟩ s
      have hres := frameStep_resolution render crop template gp data fps
        ⟨i0, last0⟩ s
      have hbasic := advanceIdx_basic data ((s : ℚ) / fps) i0 hi0
      have hmono : ((s : ℚ)) / fps ≤ ((s + 1 : ℕ) : ℚ) / fps := by
        refine (div_le_div_iff_of_pos_right hfps).mpr ?_
        exact_mod_cast Nat.le_succ s
      have hstart' : advanceIdx data ((s : ℚ) / fps) i0 = 0 ∨
          (data.getD (advanceIdx data ((s : ℚ) / fps) i0) default).timestamp ≤
            ((s + 1 : ℕ) : ℚ) / fps := by
        rcases hbasic.2.2.1 with heq | hle
        · rw [heq]
          rcases hstart with hz | hts
          · exact Or.inl hz
          · exact Or.inr (le_trans (heq ▸ hts) hmono)
        · exact Or.inr (le_trans hle hmono)
      have hIH := ih (s + 1) (advanceIdx data ((s : ℚ) / fps) i0)
        (some ((frameStep render crop template gp data fps ⟨i0, last0⟩ s).2.params,
          (frameStep render crop template gp data fps ⟨i0, last0⟩ s).2.raster))
        hbasic.2.1 hstart' j' (by omega)
      have hcast : ((s + 1 + j' : ℕ) : ℚ) = ((s + (j' + 1) : ℕ) : ℚ) := by
        congr 1
        omega
      rw [hcast] at hIH
      have hstep1 : (frameStep render crop template gp data fps ⟨i0, last0⟩ s).1 =
          (⟨advanceIdx data ((s : ℚ) / fps) i0,
            some ((frameStep render crop template gp data fps ⟨i0, last0⟩ s).2.params,
              (frameStep render crop template gp data fps ⟨i0, last0⟩ s).2.raster)⟩ :
            LoopState R) := by
        rw [hstate, hres.1]
      rw [hstep1]
      exact hIH

theorem advanceIdx_two_ge (e1 e2 : Event) (t : ℚ) (hge : e2.timestamp ≤ t) :
    advanceIdx [e1, e2] t 0 = 1 := by
  rw [advanceIdx_eq, if_pos ?_]
  · rw [advanceIdx_eq, if_neg ?_]
    rintro ⟨h2, _⟩
    simp at h2
  · refine ⟨by simp, ?_⟩
    simpa using hge

theorem advanceIdx_two_lt (e1 e2 : Event) (t : ℚ) (hlt : t < e2.timestamp) :
    advanceIdx [e1, e2] t 0 = 0 := by
  rw [advanceIdx_eq, if_neg ?_]
  rintro ⟨_, h2⟩
  simp only [List.getD_cons_succ, List.getD_cons_zero] at h2
  linarith

/-- C10 — The Frame Cache compares complete Event dicts, `timestamp`
included: for two consecutive events whose named fields are all identical
but whose timestamps differ, the first frame whose clock reaches the second
event's timestamp resolves to the second event and triggers a fresh render
(the resolved set differs from the previous frame's only in `timestamp`),
even though the filled template — and hence the rendered output — is
unchanged, because `timestamp` is never substituted. -/
theorem frame_cache_timestamp_sensitivity {R : Type} [Inhabited R]
    (render : List Char → R) (crop : R → R) (template : List Char)
    (gp : List (String × String)) (e1 e2 : Event) (fps : ℚ) (n f : ℕ)
    (hfields : e1.fields = e2.fields) (hts : e1.timestamp < e2.timestamp)
    (hfps : 0 < fps) (hf1 : 1 ≤ f) (hfn : f < n)
    (hge : e2.timestamp ≤ (f : ℚ) / fps)
    (hprev : ((f - 1 : ℕ) : ℚ) / fps < e2.timestamp) :
    (runFramesAt render crop template gp [e1, e2] fps n f).action =
        FrameAction.rendered ∧
      (runFramesAt render crop template gp [e1, e2] fps n f).params = e2 ∧
      (runFramesAt render crop template gp [e1, e2] fps n (f - 1)).params = e1 ∧
      fill_template template gp (eventDict e1) =
        fill_template template gp (eventDict e2) := by
  have hsort : SortedTimeline [e1, e2] := by
    unfold SortedTimeline
    refine List.pairwise_cons.mpr ⟨?_, by simp⟩
    intro e he
    rw [List.mem_singleton.mp he]
    exact le_of_lt hts
  have hne : ([e1, e2] : List Event) ≠ [] := by simp
  have hrange : List.range n = List.range' 0 n := List.range_eq_range' n
  have htr := frameLoop_resolution render crop template gp [e1, e2] fps hsort
    hne hfps n 0 0 none (by simp) (Or.inl rfl)
  have hf := htr f hfn
  have hfm := htr (f - 1) (by omega)
  simp only [Nat.zero_add] at hf hfm
  rw [advanceIdx_two_ge e1 e2 _ hge] at hf
  rw [advanceIdx_two_lt e1 e2 _ hprev] at hfm
  simp only [List.getD_cons_succ, List.getD_cons_zero] at hf hfm
  have hff : f - 1 + 1 = f := by omega
  have hcons := frameLoop_consec render crop template gp [e1, e2] fps
    (List.range n) ⟨0, none⟩ (f - 1) (by rw [List.length_range]; omega)
  rw [hrange, hff] at hcons
  simp only [runFramesAt, runFrames, hrange]
  refine ⟨?_, hf.2, hfm.2,
    fill_template_timestamp_insensitive template gp e1 e2 hfields⟩
  set prev := (frameLoop render crop template gp [e1, e2] fps ⟨0, none⟩
      (List.range' 0 n)).getD (f - 1) default with hprevdef
  rw [hcons]
  refine ((frameStep_cache render crop template gp [e1, e2] fps
    ⟨prev.dataIdx, some (prev.params, prev.raster)⟩ ((List.range' 0 n).getD f 0)
    prev.params prev.raster rfl).2 ?_).1
  have hpar : (frameStep render crop template gp [e1, e2] fps
      ⟨prev.dataIdx, some (prev.params, prev.raster)⟩
      ((List.range' 0 n).getD f 0)).2.params = e2 := by
    rw [← hcons]
    exact hf.2
  rw [hpar, hfm.2]
  exact fun heq => lt_irrefl _ (heq ▸ hts)

theorem frame_cache_timestamp_sensitivity_witness :
    (runFramesAt List.length Nat.succ tmplX [] [evTsA, evTsB] 1 4 2).action =
        FrameAction.rendered ∧
      (runFramesAt List.length Nat.succ tmplX [] [evTsA, evTsB] 1 4 2).params =
        evTsB ∧
      (runFramesAt List.length Nat.succ tmplX [] [evTsA, evTsB] 1 4
          (2 - 1)).params = evTsA ∧
      fill_template tmplX [] (eventDict evTsA) =
        fill_template tmplX [] (eventDict evTsB) :=
  frame_cache_timestamp_sensitivity List.length Nat.succ tmplX [] evTsA evTsB
    1 4 2 rfl (by norm_num [evTsA, evTsB]) (by norm_num) (by norm_num)
    (by norm_num) (by norm_num [evTsB]) (by norm_num [evTsB])

/-- C3 counterexample: in a one-frame run whose render raises, the error
propagates out of the pipeline driver with the browser NOT released
(`cleanup_browser` never runs), contradicting release-on-every-path. -/
theorem browser_release_cex :
    generate_overlay_flow
        (fun _ => Except.error (PyError.exception "render crash"))
        (Except.ok ()) 1 =
      (Except.error (PyError.exception "render crash"), false) := by
  rfl

/-- C3 (corrected) — the Render Backend Adapter is released only on the
success path: `cleanup_browser` is invoked iff every frame render and the
encode step completed without raising; on any fatal error the exception
propagates without releasing the browser. -/
theorem browser_release_success_only (renderResult : ℕ → Except PyError Unit)
    (encodeResult : Except PyError Unit) (totalFrames : ℕ) :
    (generate_overlay_flow renderResult encodeResult totalFrames).2 = true ↔
      (generate_overlay_flow renderResult encodeResult totalFrames).1 =
        Except.ok () := by
  unfold generate_overlay_flow
  cases (List.range totalFrames).foldl
      (fun acc i => acc >>= fun _ => renderResult i) (Except.ok ()) with
  | error e => simp
  | ok v =>
    cases encodeResult with
    | error e => simp
    | ok w => simp

theorem headD_mem {α : Type _} (l : List α) (d : α) (h : l ≠ []) :
    l.headD d ∈ l := by
  cases l with
  | nil => exact absurd rfl h
  | cons a l => exact List.mem_cons_self a l

theorem pairwise_headD_le (l : List ℕ) (hp : l.Pairwise (· < ·)) :
    ∀ x ∈ l, l.headD 0 ≤ x := by
  cases l with
  | nil => intro x hx; cases hx
  | cons a l =>
    intro x hx
    rcases List.mem_cons.mp hx with rfl | hmem
    · exact le_refl _
    · exact le_of_lt ((List.pairwise_cons.mp hp).1 x hmem)

theorem pairwise_le_getLastD :
    ∀ l : List ℕ, l.Pairwise (· < ·) → ∀ x ∈ l, x ≤ l.getLastD 0 := by
  intro l
  induction l with
  | nil => intro _ x hx; cases hx
  | cons a l ih =>
    intro hp x hx
    rw [List.getLastD_cons]
    rcases List.mem_cons.mp hx with rfl | hmem
    · cases l with
      | nil => exact le_refl _
      | cons b l' =>
        have hmem' := getLastD_mem (b :: l') x (by simp)
        exact le_of_lt ((List.pairwise_cons.mp hp).1 _ hmem')
    · have hgl : l.getLastD 0 = l.getLastD a := by
        cases l with
        | nil => cases hmem
        | cons c l'' =>
          rw [List.getLastD_cons, List.getLastD_cons]
      rw [← hgl]
      exact ih (List.pairwise_cons.mp hp).2 x hmem

theorem foldr_max_pos (l : List ℕ) : 0 < l.foldr max 0 ↔ ∃ x ∈ l, 0 < x := by
  induction l with
  | nil => simp
  | cons a l ih => simp [List.foldr_cons, lt_max_iff, ih]

theorem getD_pos_lt_length (l : List ℕ) (j : ℕ) (h : 0 < l.getD j 0) :
    j < l.length := by
  by_contra hj
  rw [List.getD_eq_default l 0 (by omega)] at h
  omega

theorem rowAlphaMax_pos_iff {P : Type} (alphaOf : P → ℕ)
    (rows : List (List P)) (i : ℕ) :
    0 < rowAlphaMax alphaOf (rows.getD i []) ↔
      ∃ j, 0 < pixAlpha alphaOf rows i j := by
  unfold rowAlphaMax pixAlpha
  rw [foldr_max_pos]
  constructor
  · rintro ⟨x, hx, hxpos⟩
    obtain ⟨j, hj, hxe⟩ := List.mem_iff_getElem.mp hx
    refine ⟨j, ?_⟩
    rw [List.getD_eq_getElem _ _ hj, hxe]
    exact hxpos
  · rintro ⟨j, hpos⟩
    have hj : j < ((rows.getD i []).map alphaOf).length :=
      getD_pos_lt_length _ j hpos
    refine ⟨((rows.getD i []).map alphaOf).getD j 0, ?_, hpos⟩
    rw [List.getD_eq_getElem _ _ hj]
    exact List.getElem_mem hj

theorem colAlphaMax_pos_iff {P : Type} (alphaOf : P → ℕ)
    (rows : List (List P)) (j : ℕ) :
    0 < colAlphaMax alphaOf rows j ↔
      ∃ i, 0 < pixAlpha alphaOf rows i j := by
  unfold colAlphaMax
  rw [foldr_max_pos]
  constructor
  · rintro ⟨x, hx, hxpos⟩
    obtain ⟨i, hi, hxe⟩ := List.mem_iff_getElem.mp hx
    rw [List.length_map] at hi
    refine ⟨i, ?_⟩
    unfold pixAlpha
    rw [List.getElem_map] at hxe
    rw [rows.getD_eq_getElem [] hi, hxe]
    exact hxpos
  · rintro ⟨i, hpos⟩
    unfold pixAlpha at hpos
    by_cases hi : i < rows.length
    · refine ⟨((rows.getD i []).map alphaOf).getD j 0, ?_, hpos⟩
      rw [rows.getD_eq_getElem [] hi]
      exact List.mem_map.mpr ⟨rows[i], List.getElem_mem hi, rfl⟩
    · rw [List.getD_eq_default rows [] (by omega)] at hpos
      simp at hpos

theorem mem_non_transparent_rows {P : Type} (alphaOf : P → ℕ)
    (rows : List (List P)) (i : ℕ) :
    i ∈ non_transparent_rows alphaOf rows ↔
      i < rows.length ∧ ∃ j, 0 < pixAlpha alphaOf rows i j := by
  unfold non_transparent_rows
  rw [List.mem_filter]
  simp only [List.mem_range, decide_eq_true_eq]
  rw [rowAlphaMax_pos_iff]

theorem mem_non_transparent_cols {P : Type} (alphaOf : P → ℕ)
    (rows : List (List P)) (w j : ℕ) :
    j ∈ non_transparent_cols alphaOf rows w ↔
      j < w ∧ ∃ i, 0 < pixAlpha alphaOf rows i j := by
  unfold non_transparent_cols
  rw [List.mem_filter]
  simp only [List.mem_range, decide_eq_true_eq]
  rw [colAlphaMax_pos_iff]

theorem non_transparent_rows_sorted {P : Type} (alphaOf : P → ℕ)
    (rows : List (List P)) :
    (non_transparent_rows alphaOf rows).Pairwise (· < ·) :=
  (List.pairwise_lt_range _).sublist (List.filter_sublist _)

theorem non_transparent_cols_sorted {P : Type} (alphaOf : P → ℕ)
    (rows : List (List P)) (w : ℕ) :
    (non_transparent_cols alphaOf rows w).Pairwise (· < ·) :=
  (List.pairwise_lt_range _).sublist (List.filter_sublist _)

theorem pixAlpha_pos_row_lt {P : Type} (alphaOf : P → ℕ)
    (rows : List (List P)) (i j : ℕ) (h : 0 < pixAlpha alphaOf rows i j) :
    i < rows.length := by
  by_contra hi
  unfold pixAlpha at h
  rw [List.getD_eq_default rows [] (by omega)] at h
  simp at h

theorem pixAlpha_pos_col_lt {P : Type} (alphaOf : P → ℕ)
    (rows : List (List P)) (w : ℕ) (hrect : ∀ r ∈ rows, r.length = w)
    (i j : ℕ) (h : 0 < pixAlpha alphaOf rows i j) : j < w := by
  have hi := pixAlpha_pos_row_lt alphaOf rows i j h
  have hj : j < ((rows.getD i []).map alphaOf).length :=
    getD_pos_lt_length _ j h
  rw [List.length_map] at hj
  have hmem : rows.getD i [] ∈ rows := by
    rw [rows.getD_eq_getElem [] hi]
    exact List.getElem_mem hi
  rw [hrect _ hmem] at hj
  exact hj

/-- C7 — Border trim contract: on a rectangular RGBA raster with at least
one pixel of positive alpha, `crop_transparent_borders` crops to exactly
the rows `top..bottom` and columns `left..right`, where those bounds
enclose every pixel with alpha > 0 (enclosure) and each boundary row and
column itself contains such a pixel (minimality) — the minimal axis-aligned
bounding box, inclusive of its boundary; a fully transparent raster and a
raster without an alpha channel are returned unmodified and raise no
error. -/
theorem crop_transparent_borders_spec {P : Type} (alphaOf : P → ℕ)
    (rows : List (List P)) (w i0 j0 : ℕ)
    (hrect : ∀ r ∈ rows, r.length = w)
    (hpos : 0 < pixAlpha alphaOf rows i0 j0) :
    (∀ i j, 0 < pixAlpha alphaOf rows i j →
        cropTop alphaOf rows ≤ i ∧ i ≤ cropBottom alphaOf rows ∧
        cropLeft alphaOf rows w ≤ j ∧ j ≤ cropRight alphaOf rows w) ∧
      (∃ j, 0 < pixAlpha alphaOf rows (cropTop alphaOf rows) j) ∧
      (∃ j, 0 < pixAlpha alphaOf rows (cropBottom alphaOf rows) j) ∧
      (∃ i, 0 < pixAlpha alphaOf rows i (cropLeft alphaOf rows w)) ∧
      (∃ i, 0 < pixAlpha alphaOf rows i (cropRight alphaOf rows w)) ∧
      crop_transparent_borders alphaOf (PILImage.rgba rows) =
        PILImage.rgba
          (((rows.take (cropBottom alphaOf rows + 1)).drop
              (cropTop alphaOf rows)).map
            fun r => (r.take (cropRight alphaOf rows w + 1)).drop
              (cropLeft alphaOf rows w)) ∧
      (∀ rows2 : List (List P), (∀ i j, pixAlpha alphaOf rows2 i j = 0) →
        crop_transparent_borders alphaOf (PILImage.rgba rows2) =
          PILImage.rgba rows2) ∧
      (∀ rows3 : List (List P),
        crop_transparent_borders alphaOf (PILImage.nonRGBA rows3) =
          PILImage.nonRGBA rows3) := by
  have hi0 : i0 < rows.length := pixAlpha_pos_row_lt alphaOf rows i0 j0 hpos
  have hj0 : j0 < w := pixAlpha_pos_col_lt alphaOf rows w hrect i0 j0 hpos
  have hi0mem : i0 ∈ non_transparent_rows alphaOf rows :=
    (mem_non_transparent_rows alphaOf rows i0).mpr ⟨hi0, j0, hpos⟩
  have hj0mem : j0 ∈ non_transparent_cols alphaOf rows w :=
    (mem_non_transparent_cols alphaOf rows w j0).mpr ⟨hj0, i0, hpos⟩
  have hntrne : non_transparent_rows alphaOf rows ≠ [] :=
    List.ne_nil_of_mem hi0mem
  have hntcne : non_transparent_cols alphaOf rows w ≠ [] :=
    List.ne_nil_of_mem hj0mem
  have hw : (rows.headD []).length = w := by
    cases rows with
    | nil => simp [pixAlpha] at hpos
    | cons r rest => exact hrect r (List.mem_cons_self r rest)
  refine ⟨?_, ?_, ?_, ?_, ?_, ?_, ?_, fun rows3 => rfl⟩
  · intro i j hij
    have himem : i ∈ non_transparent_rows alphaOf rows :=
      (mem_non_transparent_rows alphaOf rows i).mpr
        ⟨pixAlpha_pos_row_lt alphaOf rows i j hij, j, hij⟩
    have hjmem : j ∈ non_transparent_cols alphaOf rows w :=
      (mem_non_transparent_cols alphaOf rows w j).mpr
        ⟨pixAlpha_pos_col_lt alphaOf rows w hrect i j hij, i, hij⟩
    exact ⟨pairwise_headD_le _ (non_transparent_rows_sorted alphaOf rows) i himem,
      pairwise_le_getLastD _ (non_transparent_rows_sorted alphaOf rows) i himem,
      pairwise_headD_le _ (non_transparent_cols_sorted alphaOf rows w) j hjmem,
      pairwise_le_getLastD _ (non_transparent_cols_sorted alphaOf rows w) j hjmem⟩
  · have := (mem_non_transparent_rows alphaOf rows _).mp
      (headD_mem _ 0 hntrne)
    exact this.2
  · have := (mem_non_transparent_rows alphaOf rows _).mp
      (getLastD_mem _ 0 hntrne)
    exact this.2
  · have := (mem_non_transparent_cols alphaOf rows w _).mp
      (headD_mem _ 0 hntcne)
    exact this.2
  · have := (mem_non_transparent_cols alphaOf rows w _).mp
      (getLastD_mem _ 0 hntcne)
    exact this.2
  · show (let w' := (rows.headD []).length
      if non_transparent_rows alphaOf rows = [] ∨
          non_transparent_cols alphaOf rows w' = [] then
        PILImage.rgba rows
      else
        PILImage.rgba
          (((rows.take (cropBottom alphaOf rows + 1)).drop
              (cropTop alphaOf rows)).map
            fun r => (r.take (cropRight alphaOf rows w' + 1)).drop
              (cropLeft alphaOf rows w'))) = _
    rw [show (rows.headD []).length = w from hw]
    rw [if_neg (by rintro (h | h) <;> [exact hntrne h; exact hntcne h])]
  · intro rows2 hz
    have hntr2 : non_transparent_rows alphaOf rows2 = [] := by
      unfold non_transparent_rows
      rw [List.filter_eq_nil_iff]
      intro i _
      simp only [decide_eq_true_eq]
      rw [rowAlphaMax_pos_iff]
      rintro ⟨j, hj⟩
      rw [hz i j] at hj
      omega
    show (let w' := (rows2.headD []).length
      if non_transparent_rows alphaOf rows2 = [] ∨
          non_transparent_cols alphaOf rows2 w' = [] then
        PILImage.rgba rows2
      else
        PILImage.rgba
          (((rows2.take (cropBottom alphaOf rows2 + 1)).drop
              (cropTop alphaOf rows2)).map
            fun r => (r.take (cropRight alphaOf rows2 (rows2.headD []).length + 1)).drop
              (cropLeft alphaOf rows2 (rows2.headD []).length))) = _
    rw [if_pos (Or.inl hntr2)]

set_option maxRecDepth 10000 in
theorem crop_transparent_borders_spec_witness :
    (∀ i j, 0 < pixAlpha id alpha100 i j →
        cropTop id alpha100 ≤ i ∧ i ≤ cropBottom id alpha100 ∧
        cropLeft id alpha100 100 ≤ j ∧ j ≤ cropRight id alpha100 100) ∧
      (∃ j, 0 < pixAlpha id alpha100 (cropTop id alpha100) j) ∧
      (∃ j, 0 < pixAlpha id alpha100 (cropBottom id alpha100) j) ∧
      (∃ i, 0 < pixAlpha id alpha100 i (cropLeft id alpha100 100)) ∧
      (∃ i, 0 < pixAlpha id alpha100 i (cropRight id alpha100 100)) ∧
      crop_transparent_borders id (PILImage.rgba alpha100) =
        PILImage.rgba
          (((alpha100.take (cropBottom id alpha100 + 1)).drop
              (cropTop id alpha100)).map
            fun r => (r.take (cropRight id alpha100 100 + 1)).drop
              (cropLeft id alpha100 100)) ∧
      (∀ rows2 : List (List ℕ), (∀ i j, pixAlpha id rows2 i j = 0) →
        crop_transparent_borders id (PILImage.rgba rows2) =
          PILImage.rgba rows2) ∧
      (∀ rows3 : List (List ℕ),
        crop_transparent_borders id (PILImage.nonRGBA rows3) =
          PILImage.nonRGBA rows3) :=
  crop_transparent_borders_spec id alpha100 100 5 5 (by decide) (by decide)

theorem pyReplace_append_no_open (k : String) (v s t : List Char)
    (hs : '{' ∉ s) :
    pyReplace (placeholder k) v (s ++ t) =
      s ++ pyReplace (placeholder k) v t := by
  induction s with
  | nil => simp
  | cons c s ih =>
    rw [List.cons_append, pyReplace_cons, if_neg ?_]
    · rw [ih fun hmem => hs (List.mem_cons_of_mem c hmem)]
      rfl
    · rintro ⟨_, hpre⟩
      have hp := List.isPrefixOf_iff_prefix.mp hpre
      simp only [placeholder] at hp
      have hc := (List.cons_prefix_cons.mp hp).1
      exact hs (by rw [hc]; exact List.mem_cons_self c s)

theorem pyReplace_placeholder_self (k : String) (v t : List Char) :
    pyReplace (placeholder k) v (placeholder k ++ t) =
      v ++ pyReplace (placeholder k) v t := by
  have hsplit : placeholder k ++ t =
      '{' :: (('{' :: (k.data ++ ['}', '}'])) ++ t) := by
    simp [placeholder]
  rw [hsplit, pyReplace_cons, if_pos ?_]
  · congr 1
    rw [← hsplit, List.drop_left]
  · refine ⟨placeholder_ne_nil k, ?_⟩
    rw [← hsplit]
    exact List.isPrefixOf_iff_prefix.mpr ⟨t, rfl⟩

theorem name_close_not_prefix :
    ∀ (kd nd t : List Char), kd ≠ nd → '}' ∉ kd → '}' ∉ nd →
      ¬ ((kd ++ ['}', '}']) <+: ((nd ++ ['}', '}']) ++ t)) := by
  intro kd
  induction kd with
  | nil =>
    intro nd t hne _ hn hpre
    cases nd with
    | nil => exact hne rfl
    | cons c nd2 =>
      simp only [List.nil_append, List.cons_append] at hpre
      have hc := (List.cons_prefix_cons.mp hpre).1
      exact hn (by rw [hc]; exact List.mem_cons_self c nd2)
  | cons c kd2 ih =>
    intro nd t hne hk hn hpre
    cases nd with
    | nil =>
      simp only [List.cons_append, List.nil_append] at hpre
      have hc := (List.cons_prefix_cons.mp hpre).1
      exact hk (by rw [← hc]; exact List.mem_cons_self c kd2)
    | cons c2 nd2 =>
      simp only [List.cons_append] at hpre
      obtain ⟨hc, hpre2⟩ := List.cons_prefix_cons.mp hpre
      refine ih nd2 t (fun heq => hne ?_)
        (fun h => hk (List.mem_cons_of_mem c h))
        (fun h => hn (List.mem_cons_of_mem c2 h)) hpre2
      rw [hc, heq]

theorem placeholder_not_prefix (k n : String) (t : List Char)
    (hk : '}' ∉ k.data) (hn : '}' ∉ n.data) (hne : k ≠ n) :
    ¬ (placeholder k <+: placeholder n ++ t) := by
  intro hpre
  simp only [placeholder, List.cons_append] at hpre
  obtain ⟨_, hpre1⟩ := List.cons_prefix_cons.mp hpre
  obtain ⟨_, hpre2⟩ := List.cons_prefix_cons.mp hpre1
  refine name_close_not_prefix k.data n.data t (fun h => hne ?_) hk hn hpre2
  cases k
  cases n
  exact congrArg String.mk h

theorem pyReplace_placeholder_other (k n : String) (v t : List Char)
    (hk : BraceFree k.data) (hn : BraceFree n.data) (hne : k ≠ n) :
    pyReplace (placeholder k) v (placeholder n ++ t) =
      placeholder n ++ pyReplace (placeholder k) v t := by
  have hsplit : placeholder n ++ t =
      '{' :: ('{' :: ((n.data ++ ['}', '}']) ++ t)) := by
    simp [placeholder]
  rw [hsplit, pyReplace_cons, if_neg ?_]
  swap
  · rintro ⟨_, hpre⟩
    rw [← hsplit] at hpre
    exact placeholder_not_prefix k n t hk.2 hn.2 hne
      (List.isPrefixOf_iff_prefix.mp hpre)
  rw [pyReplace_cons, if_neg ?_]
  swap
  · rintro ⟨_, hpre⟩
    have hp := List.isPrefixOf_iff_prefix.mp hpre
    simp only [placeholder] at hp
    obtain ⟨_, hp1⟩ := List.cons_prefix_cons.mp hp
    cases hnd : n.data with
    | nil =>
      rw [hnd] at hp1
      simp only [List.nil_append, List.cons_append] at hp1
      exact absurd (List.cons_prefix_cons.mp hp1).1 (by decide)
    | cons c nd2 =>
      rw [hnd] at hp1
      simp only [List.cons_append] at hp1
      have hc := (List.cons_prefix_cons.mp hp1).1
      exact hn.1 (by rw [hnd, ← hc]; exact List.mem_cons_self _ nd2)
  rw [pyReplace_append_no_open k v (n.data ++ ['}', '}']) t ?_]
  · simp [placeholder]
  · intro hmem
    rcases List.mem_append.mp hmem with h | h
    · exact hn.1 h
    · exact absurd h (by decide)

theorem assembleTemplate_append_seg (a b : List Char)
    (rest : List (String × List Char)) :
    assembleTemplate (a ++ b) rest = a ++ assembleTemplate b rest := by
  cases rest with
  | nil => rfl
  | cons p rest => simp [assembleTemplate, List.append_assoc]

theorem substTemplate_append_seg (l : List (String × String))
    (a b : List Char) (rest : List (String × List Char)) :
    substTemplate l (a ++ b) rest = a ++ substTemplate l b rest := by
  cases rest with
  | nil => rfl
  | cons p rest => simp [substTemplate, List.append_assoc]

theorem dissolveFrom_seg (k : String) (v : List Char) :
    ∀ (rest : List (String × List Char)) (a b : List Char),
      dissolveFrom k v (a ++ b) rest =
        (a ++ (dissolveFrom k v b rest).1, (dissolveFrom k v b rest).2) := by
  intro rest
  induction rest with
  | nil => intro a b; rfl
  | cons p rest ih =>
    intro a b
    simp only [dissolveFrom]
    by_cases hp : p.1 = k
    · rw [if_pos hp, if_pos hp]
      have hassoc : a ++ b ++ v ++ p.2 = a ++ (b ++ v ++ p.2) := by
        simp [List.append_assoc]
      rw [hassoc, ih a (b ++ v ++ p.2)]
    · rw [if_neg hp, if_neg hp]

theorem dissolveFrom_inv (k : String) (v : List Char) (hv : '{' ∉ v) :
    ∀ (rest : List (String × List Char)) (s0 : List Char), '{' ∉ s0 →
      (∀ p ∈ rest, '{' ∉ p.2) →
      ('{' ∉ (dissolveFrom k v s0 rest).1 ∧
        (∀ p ∈ (dissolveFrom k v s0 rest).2, '{' ∉ p.2) ∧
        (∀ p ∈ (dissolveFrom k v s0 rest).2, p.1 ∈ rest.map Prod.fst)) := by
  intro rest
  induction rest with
  | nil =>
    intro s0 hs0 _
    exact ⟨hs0, by simp [dissolveFrom], by simp [dissolveFrom]⟩
  | cons p rest ih =>
    intro s0 hs0 hsegs
    simp only [dissolveFrom]
    by_cases hp : p.1 = k
    · rw [if_pos hp]
      have hs02 : '{' ∉ s0 ++ v ++ p.2 := by
        intro hmem
        rcases List.mem_append.mp hmem with h | h
        · rcases List.mem_append.mp h with h2 | h2
          · exact hs0 h2
          · exact hv h2
        · exact hsegs p (List.mem_cons_self p rest) h
      have hrec := ih (s0 ++ v ++ p.2) hs02
        (fun q hq => hsegs q (List.mem_cons_of_mem p hq))
      exact ⟨hrec.1, hrec.2.1,
        fun q hq => List.mem_cons_of_mem _ (hrec.2.2 q hq)⟩
    · rw [if_neg hp]
      have hrec := ih p.2 (hsegs p (List.mem_cons_self p rest))
        (fun q hq => hsegs q (List.mem_cons_of_mem p hq))
      refine ⟨hs0, ?_, ?_⟩
      · intro q hq
        rcases List.mem_cons.mp hq with rfl | hq2
        · exact hrec.1
        · exact hrec.2.1 q hq2
      · intro q hq
        rcases List.mem_cons.mp hq with rfl | hq2
        · simp
        · exact List.mem_cons_of_mem _ (hrec.2.2 q hq2)

theorem resolveTok_head (k v : String) (l : List (String × String))
    (hts : k ≠ "timestamp") :
    resolveTok ((k, v) :: l) k = v.data := by
  unfold resolveTok
  rw [if_neg hts, dictLookup_cons, if_pos rfl]

theorem resolveTok_ne (k v : String) (l : List (String × String))
    (n : String) (hne : k ≠ n) :
    resolveTok ((k, v) :: l) n = resolveTok l n := by
  unfold resolveTok
  by_cases hts : n = "timestamp"
  · rw [if_pos hts, if_pos hts]
  · rw [if_neg hts, if_neg hts, dictLookup_cons, if_neg hne]

theorem resolveTok_ts (v : String) (l : List (String × String))
    (n : String) :
    resolveTok (("timestamp", v) :: l) n = resolveTok l n := by
  by_cases hts : n = "timestamp"
  · unfold resolveTok
    rw [if_pos hts, if_pos hts]
  · exact resolveTok_ne "timestamp" v l n fun he => hts he.symm

theorem substTemplate_nil :
    ∀ (rest : List (String × List Char)) (s0 : List Char),
      substTemplate [] s0 rest = assembleTemplate s0 rest := by
  intro rest
  induction rest with
  | nil => intro s0; rfl
  | cons p rest ih =>
    intro s0
    simp only [substTemplate, assembleTemplate]
    rw [ih]
    have hres : resolveTok [] p.1 = placeholder p.1 := by
      unfold resolveTok
      by_cases hts : p.1 = "timestamp"
      · rw [if_pos hts]
      · rw [if_neg hts]
        rfl
    rw [hres]

theorem substTemplate_ts (v : String) (l : List (String × String)) :
    ∀ (rest : List (String × List Char)) (s0 : List Char),
      substTemplate (("timestamp", v) :: l) s0 rest =
        substTemplate l s0 rest := by
  intro rest
  induction rest with
  | nil => intro s0; rfl
  | cons p rest ih =>
    intro s0
    simp only [substTemplate]
    rw [resolveTok_ts, ih]

theorem substTemplate_cons_dissolve (k v : String)
    (l : List (String × String)) (hts : k ≠ "timestamp") :
    ∀ (rest : List (String × List Char)) (s0 : List Char),
      substTemplate ((k, v) :: l) s0 rest =
        substTemplate l (dissolveFrom k v.data s0 rest).1
          (dissolveFrom k v.data s0 rest).2 := by
  intro rest
  induction rest with
  | nil => intro s0; rfl
  | cons p rest ih =>
    intro s0
    simp only [substTemplate, dissolveFrom]
    by_cases hp : p.1 = k
    · rw [if_pos hp, hp, resolveTok_head k v l hts, ih p.2]
      rw [dissolveFrom_seg k v.data rest (s0 ++ v.data) p.2]
      rw [substTemplate_append_seg]
    · rw [if_neg hp, resolveTok_ne k v l p.1 fun he => hp he.symm, ih p.2]
      rfl

theorem pyReplace_assembleTemplate (k : String) (v : List Char)
    (hk : BraceFree k.data) :
    ∀ (rest : List (String × List Char)) (s0 : List Char), '{' ∉ s0 →
      (∀ p ∈ rest, '{' ∉ p.2) → (∀ p ∈ rest, BraceFree p.1.data) →
      pyReplace (placeholder k) v (assembleTemplate s0 rest) =
        assembleTemplate (dissolveFrom k v s0 rest).1
          (dissolveFrom k v s0 rest).2 := by
  intro rest
  induction rest with
  | nil =>
    intro s0 hs0 _ _
    have hid := pyReplace_append_no_open k v s0 [] hs0
    rw [List.append_nil] at hid
    rw [pyReplace_nil] at hid
    rw [List.append_nil] at hid
    exact hid
  | cons p rest ih =>
    intro s0 hs0 hsegs hnames
    have hsegp : '{' ∉ p.2 := hsegs p (List.mem_cons_self p rest)
    have hsegs2 : ∀ q ∈ rest, '{' ∉ q.2 :=
      fun q hq => hsegs q (List.mem_cons_of_mem p hq)
    have hnames2 : ∀ q ∈ rest, BraceFree q.1.data :=
      fun q hq => hnames q (List.mem_cons_of_mem p hq)
    simp only [assembleTemplate, dissolveFrom]
    rw [List.append_assoc, pyReplace_append_no_open k v s0 _ hs0]
    by_cases hp : p.1 = k
    · rw [if_pos hp, hp]
      rw [pyReplace_placeholder_self k v (assembleTemplate p.2 rest)]
      rw [ih p.2 hsegp hsegs2 hnames2]
      rw [dissolveFrom_seg k v rest (s0 ++ v) p.2]
      rw [assembleTemplate_append_seg]
      simp [List.append_assoc]
    · rw [if_neg hp]
      rw [pyReplace_placeholder_other k p.1 v _ hk
        (hnames p (List.mem_cons_self p rest)) fun he => hp he.symm]
      rw [ih p.2 hsegp hsegs2 hnames2]
      simp [assembleTemplate, List.append_assoc]

theorem fillList_substTemplate :
    ∀ (l : List (String × String)) (s0 : List Char)
      (rest : List (String × List Char)),
      '{' ∉ s0 → (∀ p ∈ rest, '{' ∉ p.2) →
      (∀ p ∈ rest, BraceFree p.1.data) →
      (∀ kv ∈ l, BraceFree kv.1.data) → (∀ kv ∈ l, '{' ∉ kv.2.data) →
      fillList (assembleTemplate s0 rest) l = substTemplate l s0 rest := by
  intro l
  induction l with
  | nil =>
    intro s0 rest _ _ _ _ _
    exact (substTemplate_nil rest s0).symm
  | cons kv l ih =>
    intro s0 rest hs0 hsegs hnames hkeys hvals
    obtain ⟨k, v⟩ := kv
    have hkeys2 := fun q hq => hkeys q (List.mem_cons_of_mem (k, v) hq)
    have hvals2 := fun q hq => hvals q (List.mem_cons_of_mem (k, v) hq)
    by_cases hts : k = "timestamp"
    · have hstep : fillList (assembleTemplate s0 rest) ((k, v) :: l) =
          fillList (assembleTemplate s0 rest) l := by
        show fillList (if k = "timestamp" then assembleTemplate s0 rest
          else pyReplace (placeholder k) v.data
            (assembleTemplate s0 rest)) l = _
        rw [if_pos hts]
      rw [hstep, ih s0 rest hs0 hsegs hnames hkeys2 hvals2]
      subst hts
      exact (substTemplate_ts v l rest s0).symm
    · have hstep : fillList (assembleTemplate s0 rest) ((k, v) :: l) =
          fillList (pyReplace (placeholder k) v.data
            (assembleTemplate s0 rest)) l := by
        show fillList (if k = "timestamp" then assembleTemplate s0 rest
          else pyReplace (placeholder k) v.data
            (assembleTemplate s0 rest)) l = _
        rw [if_neg hts]
      rw [hstep]
      rw [pyReplace_assembleTemplate k v.data
        (hkeys (k, v) (List.mem_cons_self (k, v) l)) rest s0 hs0 hsegs hnames]
      have hinv := dissolveFrom_inv k v.data
        (hvals (k, v) (List.mem_cons_self (k, v) l)) rest s0 hs0 hsegs
      have hnames3 : ∀ p ∈ (dissolveFrom k v.data s0 rest).2,
          BraceFree p.1.data := by
        intro p hp
        obtain ⟨q, hq, hq1⟩ := List.mem_map.mp (hinv.2.2 p hp)
        rw [← hq1]
        exact hnames q hq
      rw [ih _ _ hinv.1 hinv.2.1 hnames3 hkeys2 hvals2]
      exact (substTemplate_cons_dissolve k v l hts rest s0).symm

/-- C8 — Template substitution: the round-trip example `{{a}}{{b}}` with
`a = "1"`, `b = "2"` yields `"12"`; a template in which no effective key's
placeholder occurs (in particular a placeholder-free template, or one whose
tokens all name absent keys) is returned unchanged; the reserved key
`timestamp` is never substituted; and over EVERY effective parameter map
and every well-formed template — brace-free literal segments interleaved
with `\x7b\x7bname\x7d\x7d` tokens whose names are brace-free, with any
number of occurrences of present, absent and `timestamp` names — under the
spec's single-pass restriction that values contain no `{`, the sequential
replacement loop produces exactly the simultaneous substitution of the
spec: every literal occurrence of every non-`timestamp` key's token is
replaced by that key's value, and every other token (absent key or
`timestamp`) is left as literal unresolved text. -/
theorem fill_template_substitution (template s0 : List Char)
    (gp params l : List (String × String))
    (rest : List (String × List Char)) (tv : String)
    (htok : ∀ kv ∈ dictUpdate params gp, ¬ (placeholder kv.1 <:+: template))
    (hs0 : '{' ∉ s0) (hsegs : ∀ p ∈ rest, '{' ∉ p.2)
    (hnames : ∀ p ∈ rest, BraceFree p.1.data)
    (hkeys : ∀ kv ∈ l, BraceFree kv.1.data)
    (hvals : ∀ kv ∈ l, '{' ∉ kv.2.data) :
    fill_template tmplAB [] [("a", "1"), ("b", "2")] = "12".data ∧
      fill_template template gp params = template ∧
      fillList template [("timestamp", tv)] = template ∧
      fill_template (assembleTemplate s0 rest) [] l =
        substTemplate l s0 rest := by
  refine ⟨by decide, fillList_id template _ htok, ?_, ?_⟩
  · show (if ("timestamp" : String) = "timestamp" then template
      else pyReplace (placeholder "timestamp") tv.data template) = template
    rw [if_pos rfl]
  · show fillList (assembleTemplate s0 rest) l = substTemplate l s0 rest
    exact fillList_substTemplate l s0 rest hs0 hsegs hnames hkeys hvals

theorem fill_template_substitution_witness :
    fill_template tmplAB [] [("a", "1"), ("b", "2")] = "12".data ∧
      fill_template tmplHello [("a", "G")] [("b", "2")] = tmplHello ∧
      fillList tmplHello [("timestamp", "99")] = tmplHello ∧
      fill_template
          (assembleTemplate "A ".data
            [("a", " | ".data), ("timestamp", " t ".data),
              ("c", " ? ".data), ("a", "!".data)]) []
          [("a", "1"), ("b", "2")] =
        substTemplate [("a", "1"), ("b", "2")] "A ".data
          [("a", " | ".data), ("timestamp", " t ".data),
            ("c", " ? ".data), ("a", "!".data)] :=
  fill_template_substitution tmplHello "A ".data [("a", "G")] [("b", "2")]
    [("a", "1"), ("b", "2")]
    [("a", " | ".data), ("timestamp", " t ".data), ("c", " ? ".data),
      ("a", "!".data)]
    "99" (by decide) (by decide) (by decide) (by decide) (by decide)
    (by decide)
